import Mathlib

/-!
Verification of the libc++ `std::map` data formatter (`LibCxxMap.cpp`).

The formatter reconstructs the sorted element sequence of a `std::map` from a
read-only view of the inspected process's memory.  We embed the code as total
Lean functions over an explicit memory graph:

* process memory is a graph of tree nodes (left/right/parent pointer fields
  plus the key/value payload) together with a readability predicate;
* `MapEntry` models the C++ `MapEntry` wrapper around a `ValueObjectSP`:
  `none` is a default-constructed entry (null shared pointer), and
  `some (v, e)` an entry whose value object has unsigned value `v` and error
  flag `e`;
* `MapIterator` models the bounded in-order-successor cursor;
* the synthetic front ends are modelled as explicit state passing, with the
  externally provided capabilities (type system, expression paths, memory
  reads performed outside the tree walk) gathered in a context record.
-/

namespace LibCxxMap

/-- One tree node as laid out in the inspected process's memory: three
pointer-sized control fields (left, right, parent) and the key/value
payload of the element stored in the node. -/
structure Node where
  left : Nat
  right : Nat
  parent : Nat
  key : Nat
  val : Nat
  deriving DecidableEq, Repr

/-- The inspected process's memory: node contents at every address, and
whether a read at that address succeeds. -/
structure Memory where
  nodes : Nat → Node
  readable : Nat → Bool

/-- Models the C++ `MapEntry`: `none` is a default-constructed entry (its
`ValueObjectSP` is null), `some (v, e)` is an entry whose value object has
unsigned value `v` (the address of the node it designates) and whose
error flag (`GetError().Fail()`) is `e`. -/
abbrev MapEntry := Option (Nat × Bool)

/-- `MapEntry::value`: `GetValueAsUnsigned(0)`; 0 when the entry has no
value object. -/
def MapEntry.value : MapEntry → Nat
  | none => 0
  | some p => p.1

/-- `MapEntry::error`: true when the entry has no value object or the last
access failed. -/
def MapEntry.error : MapEntry → Bool
  | none => true
  | some p => p.2

/-- `MapEntry::null`: the node's own address is zero. -/
def MapEntry.null (e : MapEntry) : Bool := e.value == 0

/-- Models `GetSyntheticChildAtOffset` reading one pointer-sized field of
the node an entry designates: a read at an unreadable address produces a
child value object in the error state with value 0; an entry with a null
shared pointer propagates itself (the `if (!m_entry_sp)` guards). -/
def readField (mem : Memory) (f : Node → Nat) : MapEntry → MapEntry
  | none => none
  | some (v, _) => if mem.readable v then some (f (mem.nodes v), false) else some (0, true)

/-- `MapEntry::left`. -/
def entryLeft (mem : Memory) (e : MapEntry) : MapEntry := readField mem Node.left e

/-- `MapEntry::right`. -/
def entryRight (mem : Memory) (e : MapEntry) : MapEntry := readField mem Node.right e

/-- `MapEntry::parent`. -/
def entryParent (mem : Memory) (e : MapEntry) : MapEntry := readField mem Node.parent e

/-- The cursor: `MapIterator` state (current entry, fixed step budget,
sticky error flag). -/
structure MapIterator where
  m_entry : MapEntry := none
  m_max_depth : Nat := 0
  m_error : Bool := false
  deriving DecidableEq, Repr

/-- `MapIterator::is_left_child`: compare the entry's value with the value
of the left child of its parent. -/
def is_left_child (mem : Memory) (x : MapEntry) : Bool :=
  if x.null then false
  else x.value == (entryLeft mem (entryParent mem x)).value

/-- The loop of `MapIterator::tree_min`: descend left children, bounded by
the step budget; returns the final entry and whether the sticky error flag
was set.  A node in the error state sets the flag; exceeding the budget
returns a default `MapEntry()` without setting it.

The C++ loop counts `steps` up from 0 and stops once `steps > m_max_depth`;
we count the remaining budget `m_max_depth - steps` down to 0, which is the
same loop (`treeMinLoopSteps_eq` below proves the literal counting version
equal to this one). -/
def treeMinLoop (mem : Memory) (x left : MapEntry) (remaining : Nat) :
    MapEntry × Bool :=
  if left.null then (x, false)
  else if left.error then (none, true)
  else
    match remaining with
    | 0 => (none, false)
    | r + 1 => treeMinLoop mem left (entryLeft mem left) r

/-- `MapIterator::tree_min`. -/
def tree_min (mem : Memory) (maxDepth : Nat) (x : MapEntry) : MapEntry × Bool :=
  if x.null then (none, false)
  else treeMinLoop mem x (entryLeft mem x) maxDepth

/-- The upward-walk loop of `MapIterator::next`: climb parents while the
current entry is not a left child, bounded by the step budget; returns the
final entry and whether the sticky error flag was set.  An entry in the
error state sets the flag (leaving the entry in place); exceeding the
budget leaves a default `MapEntry()` without setting it; finding a
left-child relationship steps to the parent.  As in `treeMinLoop`, the
remaining budget counts down (see `nextUpLoopSteps_eq`). -/
def nextUpLoop (mem : Memory) (e : MapEntry) (remaining : Nat) : MapEntry × Bool :=
  if is_left_child mem e then (entryParent mem e, false)
  else if e.error then (e, true)
  else
    match remaining with
    | 0 => (none, false)
    | r + 1 => nextUpLoop mem (entryParent mem e) r

/-- `MapIterator::next`: libc++'s `__tree_next` — minimum of the right
subtree when there is one, otherwise walk up to the first ancestor reached
from a left child. -/
def MapIterator.next (mem : Memory) (it : MapIterator) : MapIterator :=
  if it.m_entry.null then it
  else
    let right := entryRight mem it.m_entry
    if !right.null then
      let r := tree_min mem it.m_max_depth right
      { it with m_entry := r.1, m_error := it.m_error || r.2 }
    else
      let r := nextUpLoop mem it.m_entry it.m_max_depth
      { it with m_entry := r.1, m_error := it.m_error || r.2 }

/-- The loop of `MapIterator::advance`: apply `next` `count` times, failing
as soon as the error flag is set, the entry becomes null, or the per-call
step counter exceeds the fixed budget.  Returns the C++ return value
(the entry's shared pointer, `none` on failure) and the final cursor. -/
def advanceLoop (mem : Memory) (it : MapIterator) (count steps : Nat) :
    MapEntry × MapIterator :=
  match count with
  | 0 => (it.m_entry, it)
  | c + 1 =>
    if (it.next mem).m_error || (it.next mem).m_entry.null
        || decide ((it.next mem).m_max_depth < steps + 1) then
      (none, it.next mem)
    else advanceLoop mem (it.next mem) c (steps + 1)

/-- `MapIterator::advance`. -/
def MapIterator.advance (mem : Memory) (it : MapIterator) (count : Nat) :
    MapEntry × MapIterator :=
  if it.m_error then (none, it)
  else advanceLoop mem it count 0

/-- The `UINT32_MAX` sentinel used by the front end for "not yet known". -/
def UINT32_MAX : Nat := 4294967295

/-- `LLDB_INVALID_ADDRESS` (`UINT64_MAX`). -/
def LLDB_INVALID_ADDRESS : Nat := 18446744073709551615

/-- External capabilities consumed by `LibcxxStdMapSyntheticFrontEnd`,
gathered per inspected container instance:

* `mem`: the process memory the cursor walks;
* `tree_exists`: whether `GetChildMemberWithName "__tree_"` yields a child;
* `begin_node`: the `MapEntry` content of the `__begin_node_` child
  (`none` when the child lookup fails);
* `size_field`: the value of the first element of the `__pair3_` compressed
  pair (`none` when either lookup fails);
* `derefOk v`: whether `Dereference` succeeds on the node entry with
  value `v`;
* `data_type_ok`: whether the element type is derivable from
  `__tree_.__pair3_`'s template arguments or the container's own first
  template argument (the body of `GetDataType` after the root dereference);
* `skip_result`: the payload byte offset computed by `GetValueOffset`'s
  synthetic reference struct (`none` when the probe fails);
* `synthPayload v off`: the key/value pair object obtained by
  `GetSyntheticChildAtOffset off` on the node with address `v`
  (`none` when no child can be produced);
* `cloneUnwrap p`: the result of cloning the pair and unwrapping the
  `__cc_`/`__nc` forwarding wrappers in `GetChildAtIndex`. -/
structure Ctx where
  mem : Memory
  tree_exists : Bool
  begin_node : Option (Nat × Bool)
  size_field : Option Nat
  derefOk : Nat → Bool
  data_type_ok : Bool
  skip_result : Option Nat
  synthPayload : Nat → Nat → Option (Nat × Nat)
  cloneUnwrap : Nat × Nat → Option (Nat × Nat)

/-- The mutable state of `LibcxxStdMapSyntheticFrontEnd`:
tree pointer (modelled by presence), root (`__begin_node_`) entry,
validity of the cached element compiler type, cached payload offset and
element count (both with the `UINT32_MAX` sentinel), and the index-keyed
iterator cache (newest binding first, as `std::map` assignment overwrites). -/
structure MapState where
  m_tree : Bool := false
  m_root_node : Option (Nat × Bool) := none
  m_element_type_valid : Bool := false
  m_skip_size : Nat := UINT32_MAX
  m_count : Nat := UINT32_MAX
  m_iterators : List (Nat × MapIterator) := []
  deriving DecidableEq, Repr

/-- `LibcxxStdMapSyntheticFrontEnd::Update`: drop count and cursor cache,
refetch the tree and its begin node.  The cached element type and payload
offset are type-level facts and are kept. -/
def Update (ctx : Ctx) (st : MapState) : MapState :=
  if ctx.tree_exists then
    { st with m_count := UINT32_MAX, m_tree := true, m_root_node := ctx.begin_node,
              m_iterators := [] }
  else
    { st with m_count := UINT32_MAX, m_tree := false, m_root_node := none,
              m_iterators := [] }

/-- The state of a freshly constructed front end: default members, then
`Update` (run from the constructor). -/
def initialState (ctx : Ctx) : MapState := Update ctx {}

/-- `LibcxxStdMapSyntheticFrontEnd::CalculateNumChildren`: cached count if
known; 0 without a tree; otherwise read the first element of the
`__pair3_` compressed pair, treating a missing node as 0 (without caching)
and caching a successful read. -/
def CalculateNumChildren (ctx : Ctx) (st : MapState) : Nat × MapState :=
  if st.m_count ≠ UINT32_MAX then (st.m_count, st)
  else if st.m_tree = false then (0, st)
  else
    match ctx.size_field with
    | none => (0, st)
    | some v => (v, { st with m_count := v })

/-- `LibcxxStdMapSyntheticFrontEnd::GetDataType`: success if the element
type is already cached; otherwise dereference the root node and derive the
type from the tree's type metadata (collapsed into `ctx.data_type_ok`).
The root node is non-null at every call site; a missing root is mapped to
failure. -/
def GetDataType (ctx : Ctx) (st : MapState) : Bool × MapState :=
  if st.m_element_type_valid then (true, st)
  else
    match st.m_root_node with
    | none => (false, st)
    | some (v, _) =>
      if ctx.derefOk v && ctx.data_type_ok then
        (true, { st with m_element_type_valid := true })
      else (false, st)

/-- `LibcxxStdMapSyntheticFrontEnd::GetValueOffset`: no-op once resolved;
otherwise probe the synthetic reference struct, leaving the offset
unresolved when the probe fails. -/
def GetValueOffset (ctx : Ctx) (st : MapState) : MapState :=
  if st.m_skip_size ≠ UINT32_MAX then st
  else
    match ctx.skip_result with
    | none => st
    | some off => { st with m_skip_size := off }

/-- `GetKeyValuePair` at index 0 (`need_to_skip` is false): fresh cursor at
the begin node advanced 0 steps, then dereference, resolve the payload
offset, read the payload at the offset, and cache the cursor under 0. -/
def GetKeyValuePairAt0 (ctx : Ctx) (st : MapState) (maxDepth : Nat) :
    Option (Nat × Nat) × MapState :=
  let it0 : MapIterator := { m_entry := st.m_root_node, m_max_depth := maxDepth }
  let r := it0.advance ctx.mem 0
  match r.1 with
  | none => (none, st)
  | some (v, _) =>
    let g := GetDataType ctx st
    if !g.1 then (none, g.2)
    else if !ctx.derefOk v then (none, g.2)
    else
      let st2 := GetValueOffset ctx g.2
      match ctx.synthPayload v st2.m_skip_size with
      | none => (none, st2)
      | some pair => (some pair, { st2 with m_iterators := (0, r.2) :: st2.m_iterators })

/-- `LibcxxStdMapSyntheticFrontEnd::GetChildAtIndex` specialised to
index 0 (the target of the internal recursive call). -/
def GetChildAtIndex0 (ctx : Ctx) (st : MapState) : Option (Nat × Nat) × MapState :=
  let n := CalculateNumChildren ctx st
  if 0 ≥ n.1 then (none, n.2)
  else if n.2.m_tree = false || n.2.m_root_node = none then (none, n.2)
  else
    let k := GetKeyValuePairAt0 ctx n.2 n.1
    match k.1 with
    | none => (none, { k.2 with m_tree := false })
    | some pair => (ctx.cloneUnwrap pair, k.2)

/-- `LibcxxStdMapSyntheticFrontEnd::GetKeyValuePair`: reuse the cursor
cached at `idx - 1` advanced one step when available, otherwise a fresh
cursor at the begin node advanced `idx` steps; then derive the data type,
make sure the payload offset is resolved (reading element 0 first when it
is not), read the payload at the offset, and cache the advanced cursor
under `idx`. -/
def GetKeyValuePair (ctx : Ctx) (st : MapState) (idx maxDepth : Nat) :
    Option (Nat × Nat) × MapState :=
  match idx with
  | 0 => GetKeyValuePairAt0 ctx st maxDepth
  | i + 1 =>
    let fresh : MapIterator := { m_entry := st.m_root_node, m_max_depth := maxDepth }
    let start : MapIterator × Nat :=
      match st.m_iterators.lookup i with
      | some cached => (cached, 1)
      | none => (fresh, i + 1)
    let r := start.1.advance ctx.mem start.2
    match r.1 with
    | none => (none, st)
    | some (v, _) =>
      let g := GetDataType ctx st
      if !g.1 then (none, g.2)
      else
        let st2 := if g.2.m_skip_size = UINT32_MAX then (GetChildAtIndex0 ctx g.2).2 else g.2
        if st2.m_skip_size = UINT32_MAX then (none, st2)
        else
          match ctx.synthPayload v st2.m_skip_size with
          | none => (none, st2)
          | some pair => (some pair, { st2 with m_iterators := (i + 1, r.2) :: st2.m_iterators })

/-- `LibcxxStdMapSyntheticFrontEnd::GetChildAtIndex`: guard the index
against the element count and the tree/root pointers, fetch the key/value
pair (clearing the tree pointer — invalidating the view — when that
fails), and clone/unwrap the pair for presentation. -/
def GetChildAtIndex (ctx : Ctx) (st : MapState) (idx : Nat) :
    Option (Nat × Nat) × MapState :=
  let n := CalculateNumChildren ctx st
  if idx ≥ n.1 then (none, n.2)
  else if n.2.m_tree = false || n.2.m_root_node = none then (none, n.2)
  else
    let k := GetKeyValuePair ctx n.2 idx n.1
    match k.1 with
    | none => (none, { k.2 with m_tree := false })
    | some pair => (ctx.cloneUnwrap pair, k.2)

/-- External capabilities consumed by `LibCxxMapIteratorSyntheticFrontEnd`:
the fast expression-path result, the raw `__ptr_` object and its unsigned
value, the type-system probes, the raw memory read, and child access on
the recovered objects (value objects are identified by opaque handles). -/
structure IterCtx where
  has_valobj : Bool
  has_target : Bool
  fast_path : Option Nat
  slow_ptr : Option Nat
  has_i : Bool
  pair_type_ok : Bool
  raw_addr : Nat
  ast_ok : Bool
  byte_size : Option Nat
  read_ok : Bool
  data_pair : Option Nat
  child4 : Nat → Option Nat
  ptrChild : Nat → Nat → Option Nat
  spChild : Nat → Nat → Option Nat

/-- The mutable state of `LibCxxMapIteratorSyntheticFrontEnd`: the fast
path's raw pointer and the fallback's materialised pair. -/
structure IterState where
  m_pair_ptr : Option Nat := none
  m_pair_sp : Option Nat := none
  deriving DecidableEq, Repr

/-- `LibCxxMapIteratorSyntheticFrontEnd::Update`: reset both members; try
the fast expression path; otherwise resolve the raw pointer, bail out on a
null or `LLDB_INVALID_ADDRESS` value, and else reinterpret a raw memory
block as the synthetic node layout and keep its payload slot. -/
def IterUpdate (ctx : IterCtx) (_st : IterState) : IterState :=
  let reset : IterState := {}
  if !ctx.has_valobj then reset
  else if !ctx.has_target then reset
  else
    match ctx.fast_path with
    | some p => { m_pair_ptr := some p, m_pair_sp := none }
    | none =>
      match ctx.slow_ptr with
      | none => reset
      | some _ =>
        if !ctx.has_i then reset
        else if !ctx.pair_type_ok then reset
        else if ctx.raw_addr ≠ 0 ∧ ctx.raw_addr ≠ LLDB_INVALID_ADDRESS then
          if !ctx.ast_ok then reset
          else
            match ctx.byte_size with
            | none => reset
            | some _ =>
              if !ctx.read_ok then reset
              else
                match ctx.data_pair with
                | none => reset
                | some pr => { m_pair_ptr := none, m_pair_sp := ctx.child4 pr }
        else reset

/-- `LibCxxMapIteratorSyntheticFrontEnd::GetChildAtIndex`: delegate to the
fast-path object, else the materialised pair, else absent. -/
def IterGetChildAtIndex (ctx : IterCtx) (st : IterState) (idx : Nat) : Option Nat :=
  match st.m_pair_ptr with
  | some p => ctx.ptrChild p idx
  | none =>
    match st.m_pair_sp with
    | some p => ctx.spChild p idx
    | none => none

/-!  Literal step-counting versions of the bounded walks.

These mirror the C++ loops letter for letter: a `steps` counter starts at 0
(at `size_t steps = 0;`) and the walk stops as soon as `steps > m_max_depth`.
Each returns the loop's result together with the final value of the counter,
so that the step budget claims can be stated about the counter itself;
`nextUpLoopSteps_eq`/`treeMinLoopSteps_eq` prove the results equal to the
countdown formulations used by the cursor. -/

/-- Counting version of `nextUpLoop` (the counter `steps` increments, and
the walk stops once `maxDepth < steps + 1`). -/
def nextUpLoopSteps (mem : Memory) (maxDepth : Nat) (e : MapEntry) (steps : Nat) :
    (MapEntry × Bool) × Nat :=
  if is_left_child mem e then ((entryParent mem e, false), steps)
  else if e.error then ((e, true), steps)
  else if h : maxDepth < steps + 1 then ((none, false), steps + 1)
  else nextUpLoopSteps mem maxDepth (entryParent mem e) (steps + 1)
  termination_by maxDepth + 1 - steps
  decreasing_by simp at h; omega

/-- Counting version of `treeMinLoop`. -/
def treeMinLoopSteps (mem : Memory) (maxDepth : Nat) (x left : MapEntry) (steps : Nat) :
    (MapEntry × Bool) × Nat :=
  if left.null then ((x, false), steps)
  else if left.error then ((none, true), steps)
  else if h : maxDepth < steps + 1 then ((none, false), steps + 1)
  else treeMinLoopSteps mem maxDepth left (entryLeft mem left) (steps + 1)
  termination_by maxDepth + 1 - steps
  decreasing_by simp at h; omega

/-- Counting version of `advanceLoop`. -/
def advanceLoopSteps (mem : Memory) (it : MapIterator) (count steps : Nat) :
    (MapEntry × MapIterator) × Nat :=
  match count with
  | 0 => ((it.m_entry, it), steps)
  | c + 1 =>
    if (it.next mem).m_error || (it.next mem).m_entry.null
        || decide ((it.next mem).m_max_depth < steps + 1) then
      ((none, it.next mem), steps + 1)
    else advanceLoopSteps mem (it.next mem) c (steps + 1)

/-!  Iterated field reads, used to describe which nodes a walk visits. -/

/-- The chain of entries visited by the upward parent walk:
`parIter mem e k` is the entry after following `parent` `k` times. -/
def parIter (mem : Memory) (e : MapEntry) : Nat → MapEntry
  | 0 => e
  | k + 1 => entryParent mem (parIter mem e k)

/-- The chain of entries visited by the leftmost descent:
`leftIter mem e k` is the entry after following `left` `k` times. -/
def leftIter (mem : Memory) (e : MapEntry) : Nat → MapEntry
  | 0 => e
  | k + 1 => entryLeft mem (leftIter mem e k)

/-!  Concrete instances used to exercise the embedding. -/

/-- A well-formed 3-element tree: node 20 at the root (key 2), node 10 its
left child (key 1), node 30 its right child (key 3); the root's parent
field holds the container's end node 99 (never dereferenced by walks that
stay inside the sequence). -/
def egMem : Memory where
  nodes := fun a =>
    if a = 10 then ⟨0, 0, 20, 1, 100⟩
    else if a = 20 then ⟨10, 30, 99, 2, 200⟩
    else if a = 30 then ⟨0, 0, 20, 3, 300⟩
    else ⟨0, 0, 0, 0, 0⟩
  readable := fun a => a = 10 || a = 20 || a = 30

/-- The container context for `egMem`: size field 3, begin node 10,
payload offset 16, payloads read straight from the nodes. -/
def egCtx : Ctx where
  mem := egMem
  tree_exists := true
  begin_node := some (10, false)
  size_field := some 3
  derefOk := fun _ => true
  data_type_ok := true
  skip_result := some 16
  synthPayload := fun a off =>
    if off = 16 && egMem.readable a then some ((egMem.nodes a).key, (egMem.nodes a).val)
    else none
  cloneUnwrap := fun p => some p

/-- A corrupted memory graph: nodes 1 and 2 are each other's parents and
neither is a left child, so the ascendant walk from node 1 cycles forever.
The size field still claims 3 elements. -/
def cycMem : Memory where
  nodes := fun a =>
    if a = 1 then ⟨0, 0, 2, 7, 70⟩
    else if a = 2 then ⟨0, 0, 1, 8, 80⟩
    else ⟨0, 0, 0, 0, 0⟩
  readable := fun a => a = 1 || a = 2

/-- The container context for `cycMem`. -/
def cycCtx : Ctx :=
  { egCtx with
    mem := cycMem
    begin_node := some (1, false)
    synthPayload := fun a off =>
      if off = 16 && cycMem.readable a then
        some ((cycMem.nodes a).key, (cycMem.nodes a).val)
      else none }

/-!  Basic cursor lemmas. -/

theorem next_max_depth (mem : Memory) (it : MapIterator) :
    (it.next mem).m_max_depth = it.m_max_depth := by
  simp only [MapIterator.next]
  split_ifs <;> rfl

theorem next_error_mono (mem : Memory) (it : MapIterator) (h : it.m_error = true) :
    (it.next mem).m_error = true := by
  simp only [MapIterator.next]
  split_ifs <;> simp [h]

/-- Following `parent` from the parent entry is one step further along the
parent chain. -/
theorem parIter_shift (mem : Memory) (e : MapEntry) (k : Nat) :
    parIter mem (entryParent mem e) k = parIter mem e (k + 1) := by
  induction k with
  | zero => rfl
  | succ k ih => simp only [parIter, ih]

/-- Following `left` from the left-child entry is one step further along
the left chain. -/
theorem leftIter_shift (mem : Memory) (e : MapEntry) (k : Nat) :
    leftIter mem (entryLeft mem e) k = leftIter mem e (k + 1) := by
  induction k with
  | zero => rfl
  | succ k ih => simp only [leftIter, ih]

theorem parIter_zero (mem : Memory) (e : MapEntry) : parIter mem e 0 = e := rfl

theorem leftIter_zero (mem : Memory) (e : MapEntry) : leftIter mem e 0 = e := rfl

/-!  Branch lemmas for the two loops. -/

theorem nextUpLoop_ilc (mem : Memory) (e : MapEntry) (r : Nat)
    (h : is_left_child mem e = true) :
    nextUpLoop mem e r = (entryParent mem e, false) := by
  cases r <;> rw [nextUpLoop, if_pos h]

theorem nextUpLoop_err (mem : Memory) (e : MapEntry) (r : Nat)
    (h1 : is_left_child mem e = false) (h2 : e.error = true) :
    nextUpLoop mem e r = (e, true) := by
  cases r <;> rw [nextUpLoop, if_neg (by simp [h1]), if_pos h2]

theorem nextUpLoop_zero (mem : Memory) (e : MapEntry)
    (h1 : is_left_child mem e = false) (h2 : e.error = false) :
    nextUpLoop mem e 0 = (none, false) := by
  rw [nextUpLoop, if_neg (by simp [h1]), if_neg (by simp [h2])]

theorem nextUpLoop_succ (mem : Memory) (e : MapEntry) (r : Nat)
    (h1 : is_left_child mem e = false) (h2 : e.error = false) :
    nextUpLoop mem e (r + 1) = nextUpLoop mem (entryParent mem e) r := by
  rw [nextUpLoop, if_neg (by simp [h1]), if_neg (by simp [h2])]

theorem treeMinLoop_null (mem : Memory) (x left : MapEntry) (r : Nat)
    (h : left.null = true) :
    treeMinLoop mem x left r = (x, false) := by
  cases r <;> rw [treeMinLoop, if_pos h]

theorem treeMinLoop_err (mem : Memory) (x left : MapEntry) (r : Nat)
    (h1 : left.null = false) (h2 : left.error = true) :
    treeMinLoop mem x left r = (none, true) := by
  cases r <;> rw [treeMinLoop, if_neg (by simp [h1]), if_pos h2]

theorem treeMinLoop_zero (mem : Memory) (x left : MapEntry)
    (h1 : left.null = false) (h2 : left.error = false) :
    treeMinLoop mem x left 0 = (none, false) := by
  rw [treeMinLoop, if_neg (by simp [h1]), if_neg (by simp [h2])]

theorem treeMinLoop_succ (mem : Memory) (x left : MapEntry) (r : Nat)
    (h1 : left.null = false) (h2 : left.error = false) :
    treeMinLoop mem x left (r + 1) = treeMinLoop mem left (entryLeft mem left) r := by
  rw [treeMinLoop, if_neg (by simp [h1]), if_neg (by simp [h2])]

/-- The upward walk sets the sticky error flag exactly when some entry on
the parent chain that the loop actually examines (no earlier entry stops
the walk by being a left child or in error) is in the error state and
within the budget. -/
theorem nextUpLoop_error_iff (mem : Memory) :
    ∀ (r : Nat) (e : MapEntry),
      (nextUpLoop mem e r).2 = true ↔
        ∃ k, k ≤ r ∧
          (∀ j < k, is_left_child mem (parIter mem e j) = false ∧
            (parIter mem e j).error = false) ∧
          is_left_child mem (parIter mem e k) = false ∧
          (parIter mem e k).error = true := by
  intro r
  induction r with
  | zero =>
    intro e
    cases h1 : is_left_child mem e with
    | true =>
      rw [nextUpLoop_ilc mem e 0 h1]
      constructor
      · intro h; simp at h
      · rintro ⟨k, hk, hchain, hilc, herr⟩
        interval_cases k
        rw [parIter_zero, h1] at hilc
        exact absurd hilc (by simp)
    | false =>
      cases h2 : e.error with
      | true =>
        rw [nextUpLoop_err mem e 0 h1 h2]
        exact ⟨fun _ => ⟨0, Nat.le_refl 0,
          fun j hj => absurd hj (Nat.not_lt_zero j), h1, h2⟩, fun _ => rfl⟩
      | false =>
        rw [nextUpLoop_zero mem e h1 h2]
        constructor
        · intro h; simp at h
        · rintro ⟨k, hk, hchain, hilc, herr⟩
          interval_cases k
          rw [parIter_zero, h2] at herr
          exact absurd herr (by simp)
  | succ r ih =>
    intro e
    cases h1 : is_left_child mem e with
    | true =>
      rw [nextUpLoop_ilc mem e (r + 1) h1]
      constructor
      · intro h; simp at h
      · rintro ⟨k, hk, hchain, hilc, herr⟩
        match k with
        | 0 =>
          rw [parIter_zero, h1] at hilc
          exact absurd hilc (by simp)
        | k + 1 =>
          have h0 := (hchain 0 (Nat.succ_pos k)).1
          rw [parIter_zero, h1] at h0
          exact absurd h0 (by simp)
    | false =>
      cases h2 : e.error with
      | true =>
        rw [nextUpLoop_err mem e (r + 1) h1 h2]
        exact ⟨fun _ => ⟨0, Nat.zero_le _,
          fun j hj => absurd hj (Nat.not_lt_zero j), h1, h2⟩, fun _ => rfl⟩
      | false =>
        rw [nextUpLoop_succ mem e r h1 h2]
        rw [ih (entryParent mem e)]
        constructor
        · rintro ⟨k, hk, hchain, hilc, herr⟩
          refine ⟨k + 1, by omega, ?_, ?_, ?_⟩
          · intro j hj
            match j with
            | 0 => exact ⟨h1, h2⟩
            | j + 1 =>
              have := hchain j (by omega)
              rwa [parIter_shift] at this
          · rwa [parIter_shift] at hilc
          · rwa [parIter_shift] at herr
        · rintro ⟨k, hk, hchain, hilc, herr⟩
          match k with
          | 0 =>
            rw [parIter_zero, h2] at herr
            exact absurd herr (by simp)
          | k + 1 =>
            refine ⟨k, by omega, ?_, ?_, ?_⟩
            · intro j hj
              rw [parIter_shift]
              exact hchain (j + 1) (by omega)
            · rw [parIter_shift]; exact hilc
            · rw [parIter_shift]; exact herr

/-- The leftmost descent sets the sticky error flag exactly when some entry
on the left chain that the loop actually examines (all earlier entries
being non-null and error-free) is non-null, in the error state, and
within the budget. -/
theorem treeMinLoop_error_iff (mem : Memory) :
    ∀ (r : Nat) (x left : MapEntry),
      (treeMinLoop mem x left r).2 = true ↔
        ∃ k, k ≤ r ∧
          (∀ j < k, (leftIter mem left j).null = false ∧
            (leftIter mem left j).error = false) ∧
          (leftIter mem left k).null = false ∧
          (leftIter mem left k).error = true := by
  intro r
  induction r with
  | zero =>
    intro x left
    cases h1 : left.null with
    | true =>
      rw [treeMinLoop_null mem x left 0 h1]
      constructor
      · intro h; simp at h
      · rintro ⟨k, hk, hchain, hnull, herr⟩
        interval_cases k
        rw [leftIter_zero, h1] at hnull
        exact absurd hnull (by simp)
    | false =>
      cases h2 : left.error with
      | true =>
        rw [treeMinLoop_err mem x left 0 h1 h2]
        exact ⟨fun _ => ⟨0, Nat.le_refl 0,
          fun j hj => absurd hj (Nat.not_lt_zero j), h1, h2⟩, fun _ => rfl⟩
      | false =>
        rw [treeMinLoop_zero mem x left h1 h2]
        constructor
        · intro h; simp at h
        · rintro ⟨k, hk, hchain, hnull, herr⟩
          interval_cases k
          rw [leftIter_zero, h2] at herr
          exact absurd herr (by simp)
  | succ r ih =>
    intro x left
    cases h1 : left.null with
    | true =>
      rw [treeMinLoop_null mem x left (r + 1) h1]
      constructor
      · intro h; simp at h
      · rintro ⟨k, hk, hchain, hnull, herr⟩
        match k with
        | 0 =>
          rw [leftIter_zero, h1] at hnull
          exact absurd hnull (by simp)
        | k + 1 =>
          have h0 := (hchain 0 (Nat.succ_pos k)).1
          rw [leftIter_zero, h1] at h0
          exact absurd h0 (by simp)
    | false =>
      cases h2 : left.error with
      | true =>
        rw [treeMinLoop_err mem x left (r + 1) h1 h2]
        exact ⟨fun _ => ⟨0, Nat.zero_le _,
          fun j hj => absurd hj (Nat.not_lt_zero j), h1, h2⟩, fun _ => rfl⟩
      | false =>
        rw [treeMinLoop_succ mem x left r h1 h2]
        rw [ih left (entryLeft mem left)]
        constructor
        · rintro ⟨k, hk, hchain, hnull, herr⟩
          refine ⟨k + 1, by omega, ?_, ?_, ?_⟩
          · intro j hj
            match j with
            | 0 => exact ⟨h1, h2⟩
            | j + 1 =>
              have := hchain j (by omega)
              rwa [leftIter_shift] at this
          · rwa [leftIter_shift] at hnull
          · rwa [leftIter_shift] at herr
        · rintro ⟨k, hk, hchain, hnull, herr⟩
          match k with
          | 0 =>
            rw [leftIter_zero, h2] at herr
            exact absurd herr (by simp)
          | k + 1 =>
            refine ⟨k, by omega, ?_, ?_, ?_⟩
            · intro j hj
              rw [leftIter_shift]
              exact hchain (j + 1) (by omega)
            · rw [leftIter_shift]; exact hnull
            · rw [leftIter_shift]; exact herr

/-- If the upward walk runs out of budget — every examined entry is neither
a left child nor in error — the loop ends with the default `MapEntry()` and
without setting the error flag. -/
theorem nextUpLoop_exceed (mem : Memory) :
    ∀ (r : Nat) (e : MapEntry),
      (∀ k ≤ r, is_left_child mem (parIter mem e k) = false ∧
        (parIter mem e k).error = false) →
      nextUpLoop mem e r = (none, false) := by
  intro r
  induction r with
  | zero =>
    intro e h
    have h0 := h 0 (Nat.le_refl 0)
    rw [parIter_zero] at h0
    exact nextUpLoop_zero mem e h0.1 h0.2
  | succ r ih =>
    intro e h
    have h0 := h 0 (Nat.zero_le _)
    rw [parIter_zero] at h0
    rw [nextUpLoop_succ mem e r h0.1 h0.2]
    exact ih (entryParent mem e) (fun k hk => by
      rw [parIter_shift]; exact h (k + 1) (by omega))

/-- If the leftmost descent runs out of budget — every examined entry on
the left chain is non-null and error-free — the loop ends with the default
`MapEntry()` and without setting the error flag. -/
theorem treeMinLoop_exceed (mem : Memory) :
    ∀ (r : Nat) (x left : MapEntry),
      (∀ k ≤ r, (leftIter mem left k).null = false ∧
        (leftIter mem left k).error = false) →
      treeMinLoop mem x left r = (none, false) := by
  intro r
  induction r with
  | zero =>
    intro x left h
    have h0 := h 0 (Nat.le_refl 0)
    rw [leftIter_zero] at h0
    exact treeMinLoop_zero mem x left h0.1 h0.2
  | succ r ih =>
    intro x left h
    have h0 := h 0 (Nat.zero_le _)
    rw [leftIter_zero] at h0
    rw [treeMinLoop_succ mem x left r h0.1 h0.2]
    exact ih left (entryLeft mem left) (fun k hk => by
      rw [leftIter_shift]; exact h (k + 1) (by omega))

/-!  The literal counting loops compute the same walks. -/

theorem nextUpLoopSteps_eq (mem : Memory) (b : Nat) :
    ∀ (e : MapEntry) (s : Nat), (nextUpLoopSteps mem b e s).1 = nextUpLoop mem e (b - s) := by
  intro e s
  induction e, s using nextUpLoopSteps.induct mem b with
  | case1 e s h1 =>
    rw [nextUpLoopSteps, if_pos h1, nextUpLoop_ilc mem e _ h1]
  | case2 e s h1 h2 =>
    rw [nextUpLoopSteps, if_neg h1, if_pos h2,
      nextUpLoop_err mem e _ (by simpa using h1) h2]
  | case3 e s h1 h2 h3 =>
    have hz : b - s = 0 := by omega
    rw [hz, nextUpLoopSteps, if_neg h1, if_neg h2, dif_pos h3,
      nextUpLoop_zero mem e (by simpa using h1) (by simpa using h2)]
  | case4 e s h1 h2 h3 ih =>
    have hz : b - s = (b - (s + 1)) + 1 := by omega
    rw [hz, nextUpLoopSteps, if_neg h1, if_neg h2, dif_neg h3,
      nextUpLoop_succ mem e _ (by simpa using h1) (by simpa using h2)]
    exact ih

theorem nextUpLoopSteps_le (mem : Memory) (b : Nat) :
    ∀ (e : MapEntry) (s : Nat), s ≤ b → (nextUpLoopSteps mem b e s).2 ≤ b + 1 := by
  intro e s
  induction e, s using nextUpLoopSteps.induct mem b with
  | case1 e s h1 =>
    intro hs; rw [nextUpLoopSteps, if_pos h1]; omega
  | case2 e s h1 h2 =>
    intro hs; rw [nextUpLoopSteps, if_neg h1, if_pos h2]; omega
  | case3 e s h1 h2 h3 =>
    intro hs; rw [nextUpLoopSteps, if_neg h1, if_neg h2, dif_pos h3]; omega
  | case4 e s h1 h2 h3 ih =>
    intro hs
    rw [nextUpLoopSteps, if_neg h1, if_neg h2, dif_neg h3]
    exact ih (by omega)

theorem treeMinLoopSteps_eq (mem : Memory) (b : Nat) :
    ∀ (x left : MapEntry) (s : Nat),
      (treeMinLoopSteps mem b x left s).1 = treeMinLoop mem x left (b - s) := by
  intro x left s
  induction x, left, s using treeMinLoopSteps.induct mem b with
  | case1 x left s h1 =>
    rw [treeMinLoopSteps, if_pos h1, treeMinLoop_null mem x left _ h1]
  | case2 x left s h1 h2 =>
    rw [treeMinLoopSteps, if_neg h1, if_pos h2,
      treeMinLoop_err mem x left _ (by simpa using h1) h2]
  | case3 x left s h1 h2 h3 =>
    have hz : b - s = 0 := by omega
    rw [hz, treeMinLoopSteps, if_neg h1, if_neg h2, dif_pos h3,
      treeMinLoop_zero mem x left (by simpa using h1) (by simpa using h2)]
  | case4 x left s h1 h2 h3 ih =>
    have hz : b - s = (b - (s + 1)) + 1 := by omega
    rw [hz, treeMinLoopSteps, if_neg h1, if_neg h2, dif_neg h3,
      treeMinLoop_succ mem x left _ (by simpa using h1) (by simpa using h2)]
    exact ih

theorem treeMinLoopSteps_le (mem : Memory) (b : Nat) :
    ∀ (x left : MapEntry) (s : Nat), s ≤ b → (treeMinLoopSteps mem b x left s).2 ≤ b + 1 := by
  intro x left s
  induction x, left, s using treeMinLoopSteps.induct mem b with
  | case1 x left s h1 =>
    intro hs; rw [treeMinLoopSteps, if_pos h1]; omega
  | case2 x left s h1 h2 =>
    intro hs; rw [treeMinLoopSteps, if_neg h1, if_pos h2]; omega
  | case3 x left s h1 h2 h3 =>
    intro hs; rw [treeMinLoopSteps, if_neg h1, if_neg h2, dif_pos h3]; omega
  | case4 x left s h1 h2 h3 ih =>
    intro hs
    rw [treeMinLoopSteps, if_neg h1, if_neg h2, dif_neg h3]
    exact ih (by omega)

theorem advanceLoopSteps_eq (mem : Memory) :
    ∀ (c : Nat) (it : MapIterator) (s : Nat),
      (advanceLoopSteps mem it c s).1 = advanceLoop mem it c s := by
  intro c
  induction c with
  | zero => intro it s; rfl
  | succ c ih =>
    intro it s
    rw [advanceLoopSteps, advanceLoop]
    split_ifs with h
    · rfl
    · exact ih _ _

theorem advanceLoopSteps_le_add (mem : Memory) :
    ∀ (c : Nat) (it : MapIterator) (s : Nat), (advanceLoopSteps mem it c s).2 ≤ s + c := by
  intro c
  induction c with
  | zero => intro it s; exact Nat.le_add_right s 0
  | succ c ih =>
    intro it s
    rw [advanceLoopSteps]
    split_ifs with h
    · show s + 1 ≤ s + (c + 1); omega
    · exact le_trans (ih (it.next mem) (s + 1)) (by omega)

theorem advanceLoopSteps_le_budget (mem : Memory) :
    ∀ (c : Nat) (it : MapIterator) (s : Nat), s ≤ it.m_max_depth →
      (advanceLoopSteps mem it c s).2 ≤ it.m_max_depth + 1 := by
  intro c
  induction c with
  | zero => intro it s hs; exact le_trans hs (by omega)
  | succ c ih =>
    intro it s hs
    rw [advanceLoopSteps]
    split_ifs with h
    · show s + 1 ≤ it.m_max_depth + 1; omega
    · have hd : ¬ (it.next mem).m_max_depth < s + 1 := by
        intro hlt
        exact h (by simp [hlt])
      have hbud : s + 1 ≤ (it.next mem).m_max_depth := by omega
      have := ih (it.next mem) (s + 1) hbud
      rw [next_max_depth] at this
      exact this

/-!  Pointwise lemmas about entries. -/

theorem value_some (v : Nat) (e : Bool) : MapEntry.value (some (v, e)) = v := rfl

theorem error_some (v : Nat) (e : Bool) : MapEntry.error (some (v, e)) = e := rfl

theorem null_some_false {v : Nat} {e : Bool} (h : v ≠ 0) :
    MapEntry.null (some (v, e)) = false := by
  simp [MapEntry.null, MapEntry.value, h]

theorem null_some_iff {v : Nat} {e : Bool} :
    MapEntry.null (some (v, e)) = false ↔ v ≠ 0 := by
  simp [MapEntry.null, MapEntry.value]

theorem entryLeft_some (mem : Memory) (v : Nat) (e : Bool) (h : mem.readable v = true) :
    entryLeft mem (some (v, e)) = some ((mem.nodes v).left, false) := by
  simp [entryLeft, readField, h]

theorem entryRight_some (mem : Memory) (v : Nat) (e : Bool) (h : mem.readable v = true) :
    entryRight mem (some (v, e)) = some ((mem.nodes v).right, false) := by
  simp [entryRight, readField, h]

theorem entryParent_some (mem : Memory) (v : Nat) (e : Bool) (h : mem.readable v = true) :
    entryParent mem (some (v, e)) = some ((mem.nodes v).parent, false) := by
  simp [entryParent, readField, h]

/-- `is_left_child` on a readable non-null node compares the node's address
with the left-pointer read from its parent's address. -/
theorem is_left_child_node (mem : Memory) (c p : Nat) (hc0 : c ≠ 0)
    (hcr : mem.readable c = true) (hp : (mem.nodes c).parent = p) :
    is_left_child mem (some (c, false)) =
      (c == (entryLeft mem (some (p, false))).value) := by
  rw [is_left_child, if_neg (by simp [null_some_false hc0])]
  rw [value_some, entryParent_some mem c false hcr, hp]

/-!  Well-formed trees laid out in memory. -/

/-- Binary trees of node addresses. -/
inductive BT where
  | leaf : BT
  | node : BT → Nat → BT → BT
  deriving DecidableEq, Repr

/-- In-order list of node addresses. -/
def BT.addrs : BT → List Nat
  | .leaf => []
  | .node l a r => l.addrs ++ a :: r.addrs

/-- Address of the root; 0 for the empty tree, matching a null child
pointer. -/
def BT.rootAddr : BT → Nat
  | .leaf => 0
  | .node _ a _ => a

/-- Address of the leftmost (first in-order) node. -/
def BT.leftmostAddr : BT → Nat
  | .leaf => 0
  | .node .leaf a _ => a
  | .node (.node ll b lr) _ _ => (BT.node ll b lr).leftmostAddr

/-- Address of the rightmost (last in-order) node. -/
def BT.rightmostAddr : BT → Nat
  | .leaf => 0
  | .node _ a .leaf => a
  | .node _ _ (.node rl b rr) => (BT.node rl b rr).rightmostAddr

/-- Length of the left spine. -/
def BT.leftSpine : BT → Nat
  | .leaf => 0
  | .node l _ _ => l.leftSpine + 1

/-- Length of the right spine. -/
def BT.rightSpine : BT → Nat
  | .leaf => 0
  | .node _ _ r => r.rightSpine + 1

/-- `layout mem p t`: the tree `t` is laid out in `mem` with parent pointer
`p` at its root: every node address is nonzero and readable, and each node
carries the root addresses of its subtrees in its left/right fields and
its actual parent in the parent field. -/
def layout (mem : Memory) (p : Nat) : BT → Prop
  | .leaf => True
  | .node l a r => a ≠ 0 ∧ mem.readable a = true ∧
      (mem.nodes a).left = l.rootAddr ∧ (mem.nodes a).right = r.rootAddr ∧
      (mem.nodes a).parent = p ∧ layout mem a l ∧ layout mem a r

theorem addrs_length_node (l : BT) (a : Nat) (r : BT) :
    (BT.node l a r).addrs.length = l.addrs.length + r.addrs.length + 1 := by
  simp [BT.addrs]
  omega

theorem addrs_ne_nil {t : BT} (h : t ≠ BT.leaf) : t.addrs ≠ [] := by
  cases t with
  | leaf => exact absurd rfl h
  | node l a r => simp [BT.addrs]

theorem rootAddr_mem_addrs {t : BT} (h : t ≠ BT.leaf) : t.rootAddr ∈ t.addrs := by
  cases t with
  | leaf => exact absurd rfl h
  | node l a r => simp [BT.addrs, BT.rootAddr]

theorem leftSpine_le_length (t : BT) : t.leftSpine ≤ t.addrs.length := by
  induction t with
  | leaf => simp [BT.leftSpine]
  | node l a r ihl ihr =>
    rw [BT.leftSpine, addrs_length_node]
    omega

theorem rightSpine_le_length (t : BT) : t.rightSpine ≤ t.addrs.length := by
  induction t with
  | leaf => simp [BT.rightSpine]
  | node l a r ihl ihr =>
    rw [BT.rightSpine, addrs_length_node]
    omega

theorem rootAddr_ne_zero {mem : Memory} {p : Nat} {t : BT}
    (hl : layout mem p t) (h : t ≠ BT.leaf) : t.rootAddr ≠ 0 := by
  cases t with
  | leaf => exact absurd rfl h
  | node l a r => exact hl.1

/-- Every address in a laid-out tree is nonzero and readable. -/
theorem layout_mem_spec (mem : Memory) :
    ∀ (t : BT) (p : Nat), layout mem p t →
      ∀ x ∈ t.addrs, x ≠ 0 ∧ mem.readable x = true := by
  intro t
  induction t with
  | leaf => intro p _ x hx; simp [BT.addrs] at hx
  | node l a r ihl ihr =>
    intro p hl x hx
    obtain ⟨ha0, har, _, _, _, hll, hlr⟩ := hl
    simp [BT.addrs] at hx
    rcases hx with hx | hx | hx
    · exact ihl a hll x hx
    · exact hx ▸ ⟨ha0, har⟩
    · exact ihr a hlr x hx

/-- In-order head is the leftmost node. -/
theorem addrs_head (t : BT) (h : t ≠ BT.leaf) : t.addrs.head? = some t.leftmostAddr := by
  induction t with
  | leaf => exact absurd rfl h
  | node l a r ihl ihr =>
    cases l with
    | leaf => simp [BT.addrs, BT.leftmostAddr]
    | node ll b lr =>
      rw [BT.addrs, List.head?_append_of_ne_nil _ (addrs_ne_nil (by simp))]
      rw [ihl (by simp)]
      rfl

/-- In-order last is the rightmost node. -/
theorem addrs_getLast (t : BT) (h : t ≠ BT.leaf) :
    t.addrs.getLast? = some t.rightmostAddr := by
  induction t with
  | leaf => exact absurd rfl h
  | node l a r ihl ihr =>
    rw [BT.addrs, List.getLast?_append_of_ne_nil _ (by simp)]
    cases r with
    | leaf => rfl
    | node rl b rr =>
      have hne : (BT.node rl b rr).addrs ≠ [] := addrs_ne_nil (by simp)
      obtain ⟨x, xs, hxx⟩ : ∃ x xs, (BT.node rl b rr).addrs = x :: xs := by
        cases hl : (BT.node rl b rr).addrs with
        | nil => exact absurd hl hne
        | cons x xs => exact ⟨x, xs, rfl⟩
      rw [hxx, List.getLast?_cons_cons, ← hxx, ihr (by simp)]
      rfl

/-- The rightmost node of a laid-out tree is nonzero and readable, and its
right-child pointer is null. -/
theorem rightmost_spec (mem : Memory) :
    ∀ (t : BT) (p : Nat), layout mem p t → t ≠ BT.leaf →
      t.rightmostAddr ≠ 0 ∧ mem.readable t.rightmostAddr = true ∧
        (mem.nodes t.rightmostAddr).right = 0 := by
  intro t
  induction t with
  | leaf => intro p _ h; exact absurd rfl h
  | node l a r ihl ihr =>
    intro p hl _
    obtain ⟨ha0, har, _, harr, _, hll, hlr⟩ := hl
    cases r with
    | leaf => exact ⟨ha0, har, by rw [BT.rightmostAddr]; exact harr⟩
    | node rl b rr =>
      have := ihr a hlr (by simp)
      rw [show (BT.node l a (BT.node rl b rr)).rightmostAddr
        = (BT.node rl b rr).rightmostAddr from rfl]
      exact this

/-- Splitting a duplicate-free in-order list at the root. -/
theorem nodup_node {l : BT} {a : Nat} {r : BT} (h : (BT.node l a r).addrs.Nodup) :
    l.addrs.Nodup ∧ r.addrs.Nodup ∧ a ∉ l.addrs ∧ a ∉ r.addrs ∧
      ∀ x ∈ l.addrs, x ∉ r.addrs := by
  rw [BT.addrs, List.nodup_append] at h
  obtain ⟨h1, h2, h3⟩ := h
  rw [List.nodup_cons] at h2
  refine ⟨h1, h2.2, ?_, h2.1, ?_⟩
  · intro hm
    exact h3 hm (by simp)
  · intro x hx hxr
    exact h3 hx (by simp [hxr])

/-- Running the leftmost descent on an entry designating a laid-out
nonempty subtree reaches the subtree's leftmost node, without error,
whenever the budget covers the left spine. -/
theorem treeMinLoop_run (mem : Memory) :
    ∀ (t : BT) (q : Nat), layout mem q t → t ≠ BT.leaf →
      ∀ (x : MapEntry) (b : Nat), t.leftSpine ≤ b →
        treeMinLoop mem x (some (t.rootAddr, false)) b =
          (some (t.leftmostAddr, false), false) := by
  intro t
  induction t with
  | leaf => intro q _ hne; exact absurd rfl hne
  | node l a r ihl ihr =>
    intro q h _ x b hb
    obtain ⟨ha0, har, hal, _, _, hll, _⟩ := h
    rw [BT.leftSpine] at hb
    cases b with
    | zero => omega
    | succ b =>
      rw [show (BT.node l a r).rootAddr = a from rfl]
      rw [treeMinLoop_succ mem x (some (a, false)) b (null_some_false ha0) rfl]
      rw [entryLeft_some mem a false har, hal]
      cases l with
      | leaf =>
        rw [treeMinLoop_null mem _ _ b (by simp [BT.rootAddr, MapEntry.null, MapEntry.value])]
        rfl
      | node ll c lr =>
        rw [ihl a hll (by simp) (some (a, false)) b
          (by
            have e1 : (BT.node ll c lr).leftSpine = ll.leftSpine + 1 := rfl
            omega)]
        rfl

/-- `tree_min` on an entry designating a laid-out nonempty subtree reaches
the subtree's leftmost node. -/
theorem tree_min_run (mem : Memory) (t : BT) (q : Nat) (h : layout mem q t)
    (hne : t ≠ BT.leaf) (b : Nat) (hb : t.leftSpine ≤ b + 1) :
    tree_min mem b (some (t.rootAddr, false)) = (some (t.leftmostAddr, false), false) := by
  cases t with
  | leaf => exact absurd rfl hne
  | node l a r =>
    obtain ⟨ha0, har, hal, _, _, hll, _⟩ := h
    rw [show (BT.node l a r).rootAddr = a from rfl]
    rw [tree_min, if_neg (by simp [null_some_false ha0])]
    rw [entryLeft_some mem a false har, hal]
    cases l with
    | leaf =>
      rw [treeMinLoop_null mem _ _ b (by simp [BT.rootAddr, MapEntry.null, MapEntry.value])]
      rfl
    | node ll c lr =>
      rw [treeMinLoop_run mem _ a hll (by simp) _ b
        (by
          have e1 : (BT.node ll c lr).leftSpine = ll.leftSpine + 1 := rfl
          have e2 : (BT.node (BT.node ll c lr) a r).leftSpine =
            (BT.node ll c lr).leftSpine + 1 := rfl
          omega)]
      rfl

/-- Climbing the upward walk across a laid-out subtree that is not a left
child of its parent: from the subtree's rightmost node the walk ascends
its whole right spine and continues at the parent, consuming
`rightSpine` budget. -/
theorem nextUpLoop_ascend (mem : Memory) :
    ∀ (t : BT) (p : Nat), layout mem p t → t ≠ BT.leaf → t.addrs.Nodup →
      ((entryLeft mem (some (p, false))).value == t.rootAddr) = false →
      ∀ (r : Nat), t.rightSpine ≤ r →
        nextUpLoop mem (some (t.rightmostAddr, false)) r =
          nextUpLoop mem (some (p, false)) (r - t.rightSpine) := by
  intro t
  induction t with
  | leaf => intro p _ hne; exact absurd rfl hne
  | node l a rt ihl ihr =>
    intro p h _ hnd hnc r hr
    obtain ⟨ha0, har, hal, harr, hap, hll, hlr⟩ := h
    have hilc : is_left_child mem (some (a, false)) = false := by
      rw [is_left_child_node mem a p ha0 har hap]
      simpa [BEq.comm] using hnc
    cases hrt : rt with
    | leaf =>
      subst hrt
      rw [show (BT.node l a BT.leaf).rightmostAddr = a from rfl]
      have hr1 : 1 ≤ r := by
        have e1 : (BT.node l a BT.leaf).rightSpine = 1 := rfl
        omega
      obtain ⟨r, rfl⟩ : ∃ r2, r = r2 + 1 := ⟨r - 1, by omega⟩
      rw [nextUpLoop_succ mem (some (a, false)) r hilc rfl]
      rw [entryParent_some mem a false har, hap]
      have hr2 : r + 1 - (BT.node l a BT.leaf).rightSpine = r := by
        have e1 : (BT.node l a BT.leaf).rightSpine = 1 := rfl
        omega
      rw [hr2]
    | node rl c rr =>
      subst hrt
      have hnc2 : ((entryLeft mem (some (a, false))).value ==
          (BT.node rl c rr).rootAddr) = false := by
        rw [entryLeft_some mem a false har, hal, value_some]
        cases l with
        | leaf =>
          have hc0 : c ≠ 0 := hlr.1
          simp [BT.rootAddr]
          omega
        | node ll d lr2 =>
          have h1 : (BT.node ll d lr2).rootAddr ∈ (BT.node ll d lr2).addrs :=
            rootAddr_mem_addrs (by simp)
          have hdisj := (nodup_node hnd).2.2.2.2
          have h2 : (BT.node rl c rr).rootAddr ∈ (BT.node rl c rr).addrs :=
            rootAddr_mem_addrs (by simp)
          simp only [beq_eq_false_iff_ne, ne_eq]
          intro heq
          exact hdisj _ h1 (heq ▸ h2)
      have espine : (BT.node l a (BT.node rl c rr)).rightSpine =
          (BT.node rl c rr).rightSpine + 1 := rfl
      have hasc := ihr a hlr (by simp) (nodup_node hnd).2.1 hnc2 r (by omega)
      rw [show (BT.node l a (BT.node rl c rr)).rightmostAddr
        = (BT.node rl c rr).rightmostAddr from rfl]
      rw [hasc]
      have hrem : r - (BT.node rl c rr).rightSpine =
          (r - (BT.node rl c rr).rightSpine - 1) + 1 := by omega
      rw [hrem, nextUpLoop_succ mem (some (a, false)) _ hilc rfl]
      rw [entryParent_some mem a false har, hap]
      have hr2 : r - (BT.node rl c rr).rightSpine - 1 =
          r - (BT.node l a (BT.node rl c rr)).rightSpine := by omega
      rw [hr2]

/-- The upward walk from the rightmost node of a laid-out subtree that is
the left child of a readable parent `p` ends at `p`, without error,
whenever the budget covers the right spine. -/
theorem nextUpLoop_stop (mem : Memory) (t : BT) (p : Nat) (h : layout mem p t)
    (hne : t ≠ BT.leaf) (hnd : t.addrs.Nodup) (hpr : mem.readable p = true)
    (hpl : (mem.nodes p).left = t.rootAddr) (r : Nat) (hr : t.rightSpine ≤ r + 1) :
    nextUpLoop mem (some (t.rightmostAddr, false)) r = (some (p, false), false) := by
  cases t with
  | leaf => exact absurd rfl hne
  | node l a rt =>
    obtain ⟨ha0, har, hal, harr, hap, hll, hlr⟩ := h
    have hstop : is_left_child mem (some (a, false)) = true := by
      rw [is_left_child_node mem a p ha0 har hap]
      rw [entryLeft_some mem p false hpr, hpl, value_some]
      simp [BT.rootAddr]
    cases hrt : rt with
    | leaf =>
      subst hrt
      rw [show (BT.node l a BT.leaf).rightmostAddr = a from rfl]
      rw [nextUpLoop_ilc mem _ r hstop]
      rw [entryParent_some mem a false har, hap]
    | node rl c rr =>
      subst hrt
      have hnc2 : ((entryLeft mem (some (a, false))).value ==
          (BT.node rl c rr).rootAddr) = false := by
        rw [entryLeft_some mem a false har, hal, value_some]
        cases l with
        | leaf =>
          have hc0 : c ≠ 0 := hlr.1
          simp [BT.rootAddr]
          omega
        | node ll d lr2 =>
          have h1 : (BT.node ll d lr2).rootAddr ∈ (BT.node ll d lr2).addrs :=
            rootAddr_mem_addrs (by simp)
          have hdisj := (nodup_node hnd).2.2.2.2
          have h2 : (BT.node rl c rr).rootAddr ∈ (BT.node rl c rr).addrs :=
            rootAddr_mem_addrs (by simp)
          simp only [beq_eq_false_iff_ne, ne_eq]
          intro heq
          exact hdisj _ h1 (heq ▸ h2)
      have espine : (BT.node l a (BT.node rl c rr)).rightSpine =
          (BT.node rl c rr).rightSpine + 1 := rfl
      have hasc := nextUpLoop_ascend mem (BT.node rl c rr) a hlr (by simp)
        (nodup_node hnd).2.1 hnc2 r (by omega)
      rw [show (BT.node l a (BT.node rl c rr)).rightmostAddr
        = (BT.node rl c rr).rightmostAddr from rfl]
      rw [hasc, nextUpLoop_ilc mem _ _ hstop]
      rw [entryParent_some mem a false har, hap]

/-- `next` at a readable node with a non-null right child runs the
leftmost descent of the right subtree. -/
theorem next_with_right (mem : Memory) (b a : Nat) (ha0 : a ≠ 0)
    (har : mem.readable a = true) (hr0 : (mem.nodes a).right ≠ 0) :
    MapIterator.next mem { m_entry := some (a, false), m_max_depth := b, m_error := false } =
      { m_entry := (tree_min mem b (some ((mem.nodes a).right, false))).1,
        m_max_depth := b,
        m_error := (tree_min mem b (some ((mem.nodes a).right, false))).2 } := by
  rw [MapIterator.next]
  rw [if_neg (by simp [null_some_false ha0])]
  rw [entryRight_some mem a false har]
  rw [if_pos (by simp [null_some_false hr0])]
  simp

/-- `next` at a readable node with a null right child runs the upward
walk. -/
theorem next_no_right (mem : Memory) (b a : Nat) (ha0 : a ≠ 0)
    (har : mem.readable a = true) (hr0 : (mem.nodes a).right = 0) :
    MapIterator.next mem { m_entry := some (a, false), m_max_depth := b, m_error := false } =
      { m_entry := (nextUpLoop mem (some (a, false)) b).1,
        m_max_depth := b,
        m_error := (nextUpLoop mem (some (a, false)) b).2 } := by
  rw [MapIterator.next]
  rw [if_neg (by simp [null_some_false ha0])]
  rw [entryRight_some mem a false har, hr0]
  rw [if_neg (by simp [MapEntry.null, MapEntry.value])]
  simp

/-- One cursor step between two node addresses: `next` maps the error-free
iterator at `x` to the error-free iterator at `y`. -/
def StepRel (mem : Memory) (b : Nat) (x y : Nat) : Prop :=
  MapIterator.next mem { m_entry := some (x, false), m_max_depth := b, m_error := false } =
    { m_entry := some (y, false), m_max_depth := b, m_error := false }

/-- In a laid-out, duplicate-free tree whose size fits the budget, `next`
steps through the in-order address list. -/
theorem chain_addrs (mem : Memory) (b : Nat) :
    ∀ (t : BT) (p : Nat), layout mem p t → t.addrs.Nodup →
      t.addrs.length ≤ b → List.Chain' (StepRel mem b) t.addrs := by
  intro t
  induction t with
  | leaf => intro p _ _ _; simp [BT.addrs]
  | node l a rt ihl ihr =>
    intro p h hnd hlen
    obtain ⟨ha0, har, hal, harr, hap, hll, hlr⟩ := h
    obtain ⟨hndl, hndr, hal2, har2, hdisj⟩ := nodup_node hnd
    rw [BT.addrs, List.chain'_append]
    refine ⟨ihl a hll hndl (by rw [addrs_length_node] at hlen; omega), ?_, ?_⟩
    · rw [List.chain'_cons']
      refine ⟨?_, ihr a hlr hndr (by rw [addrs_length_node] at hlen; omega)⟩
      intro y hy
      cases hrt : rt with
      | leaf =>
        subst hrt
        simp [BT.addrs] at hy
      | node rl c rr =>
        subst hrt
        rw [addrs_head _ (by simp)] at hy
        have hyv : (BT.node rl c rr).leftmostAddr = y := by simpa using hy
        subst hyv
        have hsp : (BT.node rl c rr).leftSpine ≤ b + 1 := by
          have h1 := leftSpine_le_length (BT.node rl c rr)
          rw [addrs_length_node] at hlen
          omega
        show StepRel mem b a (BT.node rl c rr).leftmostAddr
        rw [StepRel, next_with_right mem b a ha0 har (by rw [harr]; exact hlr.1)]
        rw [harr, tree_min_run mem _ a hlr (by simp) b hsp]
    · intro x hx y hy
      have hyv : a = y := by simpa using hy
      subst hyv
      cases hlf : l with
      | leaf =>
        subst hlf
        simp [BT.addrs] at hx
      | node ll c lr =>
        subst hlf
        rw [addrs_getLast _ (by simp)] at hx
        have hxv : (BT.node ll c lr).rightmostAddr = x := by simpa using hx
        subst hxv
        obtain ⟨hrm0, hrmr, hrmright⟩ := rightmost_spec mem _ a hll (by simp)
        have hsp : (BT.node ll c lr).rightSpine ≤ b + 1 := by
          have h1 := rightSpine_le_length (BT.node ll c lr)
          rw [addrs_length_node] at hlen
          omega
        show StepRel mem b (BT.node ll c lr).rightmostAddr a
        rw [StepRel, next_no_right mem b _ hrm0 hrmr hrmright]
        rw [nextUpLoop_stop mem _ a hll (by simp) hndl har hal b hsp]

/-- Consecutive entries of a chain, through `getD`. -/
theorem chain'_getD {R : Nat → Nat → Prop} {ch : List Nat} (h : List.Chain' R ch)
    (i : Nat) (hi : i + 1 < ch.length) : R (ch.getD i 0) (ch.getD (i + 1) 0) := by
  have h2 := List.chain'_iff_get.mp h i (by omega)
  simp only [List.get_eq_getElem] at h2
  rwa [List.getD_eq_getElem ch 0 (by omega), List.getD_eq_getElem ch 0 (by omega)]

/-- Advancing `c` steps along a step chain of non-null addresses moves the
cursor from position `i` to position `i + c` and returns its entry, as long
as the chain is long enough and the per-call step counter stays within the
budget. -/
theorem advanceLoop_chain (mem : Memory) (b : Nat) (ch : List Nat)
    (hch : List.Chain' (StepRel mem b) ch) (hnz : ∀ x ∈ ch, x ≠ 0) :
    ∀ (c i s : Nat), i + c < ch.length → s + c ≤ b →
      advanceLoop mem
        { m_entry := some (ch.getD i 0, false), m_max_depth := b, m_error := false } c s =
      (some (ch.getD (i + c) 0, false),
        { m_entry := some (ch.getD (i + c) 0, false), m_max_depth := b,
          m_error := false }) := by
  intro c
  induction c with
  | zero => intro i s hi hs; rfl
  | succ c ih =>
    intro i s hi hs
    have hstep : StepRel mem b (ch.getD i 0) (ch.getD (i + 1) 0) :=
      chain'_getD hch i (by omega)
    have hz : ch.getD (i + 1) 0 ≠ 0 := by
      rw [List.getD_eq_getElem ch 0 (by omega)]
      exact hnz _ (List.getElem_mem _)
    rw [advanceLoop]
    rw [StepRel] at hstep
    rw [hstep]
    rw [if_neg (by
      have hn := @null_some_false (ch.getD (i + 1) 0) false hz
      have hd : decide (b < s + 1) = false := decide_eq_false (by omega)
      dsimp only
      rw [hn, hd]
      simp)]
    rw [show i + (c + 1) = (i + 1) + c by omega]
    exact ih (i + 1) (s + 1) (by omega) (by omega)

/-- `advance` along a step chain from a fresh error-free cursor. -/
theorem advance_chain (mem : Memory) (b : Nat) (ch : List Nat)
    (hch : List.Chain' (StepRel mem b) ch) (hnz : ∀ x ∈ ch, x ≠ 0)
    (c i : Nat) (hi : i + c < ch.length) (hc : c ≤ b) :
    MapIterator.advance mem
      { m_entry := some (ch.getD i 0, false), m_max_depth := b, m_error := false } c =
    (some (ch.getD (i + c) 0, false),
      { m_entry := some (ch.getD (i + c) 0, false), m_max_depth := b,
        m_error := false }) := by
  rw [MapIterator.advance, if_neg (by simp)]
  exact advanceLoop_chain mem b ch hch hnz c i 0 hi (by omega)

/-!  Valid containers: the assumptions under which the inspected map is
well-formed and the external capabilities behave as designed. -/

theorem addrs_length_pos {t : BT} (h : t ≠ BT.leaf) : 0 < t.addrs.length :=
  List.length_pos.mpr (addrs_ne_nil h)

theorem getD_mem_addrs {t : BT} {i : Nat} (h : i < t.addrs.length) :
    t.addrs.getD i 0 ∈ t.addrs := by
  rw [List.getD_eq_getElem _ _ h]
  exact List.getElem_mem _

theorem getD_zero_eq_leftmost {t : BT} (h : t ≠ BT.leaf) :
    t.addrs.getD 0 0 = t.leftmostAddr := by
  have hh := addrs_head t h
  cases hl : t.addrs with
  | nil => exact absurd hl (addrs_ne_nil h)
  | cons x xs =>
    rw [hl] at hh
    simp only [List.head?_cons, Option.some_inj] at hh
    simp [hh]

/-- A well-formed container: the tree is laid out in memory without
duplicate addresses, the container's control block reports its size and
begin node faithfully, and the type-system probes succeed, delivering the
payload stored in each node. -/
structure ValidContainer (ctx : Ctx) (t : BT) (rp off : Nat) : Prop where
  lay : layout ctx.mem rp t
  nodup : t.addrs.Nodup
  nonempty : t ≠ BT.leaf
  tree : ctx.tree_exists = true
  begin_eq : ctx.begin_node = some (t.leftmostAddr, false)
  size_eq : ctx.size_field = some t.addrs.length
  deref : ctx.derefOk t.leftmostAddr = true
  dtok : ctx.data_type_ok = true
  skip_eq : ctx.skip_result = some off
  off_ne : off ≠ UINT32_MAX
  payload : ∀ a ∈ t.addrs, ctx.synthPayload a off =
    some ((ctx.mem.nodes a).key, (ctx.mem.nodes a).val)
  unwrap : ∀ p, ctx.cloneUnwrap p = some p

/-- The key/value pair stored at the `i`-th in-order node. -/
def pairAt (ctx : Ctx) (t : BT) (i : Nat) : Nat × Nat :=
  ((ctx.mem.nodes (t.addrs.getD i 0)).key, (ctx.mem.nodes (t.addrs.getD i 0)).val)

/-- The cursor positioned at the `i`-th in-order node with the container's
element count as budget. -/
def iterAt (ctx : Ctx) (t : BT) (i : Nat) : MapIterator :=
  { m_entry := some (t.addrs.getD i 0, false), m_max_depth := t.addrs.length,
    m_error := false }

/-- The state facts preserved across queries on a valid container. -/
def StGood (ctx : Ctx) (t : BT) (off : Nat) (st : MapState) : Prop :=
  st.m_tree = true ∧
  st.m_root_node = some (t.leftmostAddr, false) ∧
  (st.m_count = UINT32_MAX ∨ st.m_count = t.addrs.length) ∧
  (st.m_skip_size = UINT32_MAX ∨ st.m_skip_size = off)

theorem stGood_initial (ctx : Ctx) (t : BT) (rp off : Nat)
    (hv : ValidContainer ctx t rp off) :
    StGood ctx t off (initialState ctx) ∧ (initialState ctx).m_iterators = [] := by
  rw [initialState, Update, if_pos hv.tree]
  exact ⟨⟨rfl, hv.begin_eq, Or.inl rfl, Or.inl rfl⟩, rfl⟩

theorem calcNum_good (ctx : Ctx) (t : BT) (st : MapState)
    (hsize : ctx.size_field = some t.addrs.length)
    (htree : st.m_tree = true)
    (hcount : st.m_count = UINT32_MAX ∨ st.m_count = t.addrs.length) :
    CalculateNumChildren ctx st =
      (t.addrs.length, { st with m_count := t.addrs.length }) := by
  rcases hcount with h | h
  · rw [CalculateNumChildren, if_neg (by simp [h]), if_neg (by simp [htree]), hsize]
  · by_cases hmx : t.addrs.length = UINT32_MAX
    · rw [CalculateNumChildren, if_neg (by simp [h, hmx]), if_neg (by simp [htree]),
        hsize]
    · rw [CalculateNumChildren, if_pos (by rw [h]; exact hmx), h]
      cases st
      simp_all

theorem getDataType_good (ctx : Ctx) (t : BT) (st : MapState)
    (hderef : ctx.derefOk t.leftmostAddr = true) (hdtok : ctx.data_type_ok = true)
    (hroot : st.m_root_node = some (t.leftmostAddr, false)) :
    GetDataType ctx st = (true, { st with m_element_type_valid := true }) := by
  by_cases he : st.m_element_type_valid = true
  · rw [GetDataType, if_pos he]
    cases st
    simp_all
  · rw [GetDataType, if_neg he, hroot]
    simp [hderef, hdtok]

theorem getValueOffset_good (ctx : Ctx) (off : Nat) (hskip : ctx.skip_result = some off)
    (hne : off ≠ UINT32_MAX) (st : MapState)
    (h : st.m_skip_size = UINT32_MAX ∨ st.m_skip_size = off) :
    GetValueOffset ctx st = { st with m_skip_size := off } := by
  rcases h with h | h
  · rw [GetValueOffset, if_neg (by simp [h]), hskip]
  · rw [GetValueOffset, if_pos (by rw [h]; exact hne)]
    cases st
    simp_all

theorem leftmost_mem_addrs {t : BT} (h : t ≠ BT.leaf) : t.leftmostAddr ∈ t.addrs := by
  rw [← getD_zero_eq_leftmost h]
  exact getD_mem_addrs (addrs_length_pos h)

theorem advance_zero (mem : Memory) (it : MapIterator) (h : it.m_error = false) :
    it.advance mem 0 = (it.m_entry, it) := by
  rw [MapIterator.advance, if_neg (by simp [h])]
  rfl

/-- The in-order step chain of a valid container, with the element count
as budget. -/
theorem vc_chain {ctx : Ctx} {t : BT} {rp off : Nat} (hv : ValidContainer ctx t rp off) :
    List.Chain' (StepRel ctx.mem t.addrs.length) t.addrs :=
  chain_addrs ctx.mem _ t rp hv.lay hv.nodup (Nat.le_refl _)

theorem vc_nz {ctx : Ctx} {t : BT} {rp off : Nat} (hv : ValidContainer ctx t rp off) :
    ∀ x ∈ t.addrs, x ≠ 0 :=
  fun x hx => (layout_mem_spec ctx.mem t rp hv.lay x hx).1

/-- Advancing the cursor of a valid container `c` steps from position `i`. -/
theorem vc_advance {ctx : Ctx} {t : BT} {rp off : Nat} (hv : ValidContainer ctx t rp off)
    (c i : Nat) (hi : i + c < t.addrs.length) (hc : c ≤ t.addrs.length) :
    (iterAt ctx t i).advance ctx.mem c =
      (some (t.addrs.getD (i + c) 0, false), iterAt ctx t (i + c)) :=
  advance_chain ctx.mem t.addrs.length t.addrs (vc_chain hv) (vc_nz hv) c i hi hc

/-- `GetKeyValuePair` at index 0 on a valid container in a good state:
yields the first payload and the cursor cached at index 0. -/
theorem kvp0_good (ctx : Ctx) (t : BT) (rp off : Nat) (hv : ValidContainer ctx t rp off)
    (st : MapState) (hg : StGood ctx t off st) :
    GetKeyValuePairAt0 ctx st t.addrs.length =
      (some (pairAt ctx t 0),
        { st with m_element_type_valid := true, m_skip_size := off,
                  m_iterators := (0, iterAt ctx t 0) :: st.m_iterators }) := by
  obtain ⟨htree, hroot, hcount, hskip⟩ := hg
  have hlm0 : t.addrs.getD 0 0 = t.leftmostAddr := getD_zero_eq_leftmost hv.nonempty
  simp only [GetKeyValuePairAt0]
  rw [advance_zero ctx.mem _ rfl]
  simp only [hroot]
  rw [getDataType_good ctx t st hv.deref hv.dtok hroot]
  simp only [Bool.not_true, Bool.false_eq_true, if_false]
  rw [hv.deref]
  simp only [Bool.not_true, Bool.false_eq_true, if_false]
  rw [getValueOffset_good ctx off hv.skip_eq hv.off_ne _ (by simpa using hskip)]
  rw [hv.payload t.leftmostAddr (leftmost_mem_addrs hv.nonempty)]
  simp only [pairAt, iterAt, hlm0, hroot]

/-- The public query at index 0 on a valid container in a good state. -/
theorem getChild0_good (ctx : Ctx) (t : BT) (rp off : Nat)
    (hv : ValidContainer ctx t rp off) (st : MapState) (hg : StGood ctx t off st) :
    GetChildAtIndex0 ctx st =
      (some (pairAt ctx t 0),
        { st with m_count := t.addrs.length, m_element_type_valid := true,
                  m_skip_size := off,
                  m_iterators := (0, iterAt ctx t 0) :: st.m_iterators }) := by
  obtain ⟨htree, hroot, hcount, hskip⟩ := hg
  simp only [GetChildAtIndex0]
  rw [calcNum_good ctx t st hv.size_eq htree hcount]
  dsimp only
  rw [if_neg (by simp; exact addrs_ne_nil hv.nonempty)]
  rw [if_neg (by simp [htree, hroot])]
  rw [kvp0_good ctx t rp off hv { st with m_count := t.addrs.length }
    ⟨htree, hroot, Or.inr rfl, hskip⟩]
  dsimp only
  rw [hv.unwrap]

/-- `GetKeyValuePair` at a positive index on a valid container in a good
state, when the cursor cache holds either exactly the cursor for the
previous index or nothing at that key. -/
theorem kvpPos_good (ctx : Ctx) (t : BT) (rp off : Nat)
    (hv : ValidContainer ctx t rp off) (st : MapState) (hg : StGood ctx t off st)
    (i : Nat) (hi : i + 1 < t.addrs.length)
    (hcache : st.m_iterators.lookup i = some (iterAt ctx t i) ∨
      st.m_iterators.lookup i = none) :
    ∃ st2 : MapState,
      GetKeyValuePair ctx st (i + 1) t.addrs.length =
        (some (pairAt ctx t (i + 1)),
          { st2 with m_iterators := (i + 1, iterAt ctx t (i + 1)) :: st2.m_iterators }) ∧
      st2.m_tree = st.m_tree ∧ st2.m_root_node = st.m_root_node ∧
      (st2.m_count = st.m_count ∨ st2.m_count = t.addrs.length) ∧
      st2.m_skip_size = off ∧
      (st2.m_iterators = st.m_iterators ∨
        st2.m_iterators = (0, iterAt ctx t 0) :: st.m_iterators) := by
  obtain ⟨htree, hroot, hcount, hskip⟩ := hg
  have hadv :
      ((match st.m_iterators.lookup i with
        | some cached => ((cached, 1) : MapIterator × Nat)
        | none => ({ m_entry := st.m_root_node, m_max_depth := t.addrs.length }, i + 1)) :
          MapIterator × Nat).1.advance ctx.mem
        (match st.m_iterators.lookup i with
          | some cached => ((cached, 1) : MapIterator × Nat)
          | none => ({ m_entry := st.m_root_node, m_max_depth := t.addrs.length }, i + 1)).2 =
      (some (t.addrs.getD (i + 1) 0, false), iterAt ctx t (i + 1)) := by
    rcases hcache with hc | hc
    · rw [hc]
      exact vc_advance hv 1 i hi (by omega)
    · rw [hc]
      have hfresh : ({ m_entry := st.m_root_node, m_max_depth := t.addrs.length } :
          MapIterator) = iterAt ctx t 0 := by
        rw [iterAt, hroot, getD_zero_eq_leftmost hv.nonempty]
      rw [hfresh]
      have := vc_advance hv (i + 1) 0 (by omega) (by omega)
      simpa using this
  simp only [GetKeyValuePair]
  rw [hadv]
  rw [getDataType_good ctx t st hv.deref hv.dtok hroot]
  simp only [Bool.not_true, Bool.false_eq_true, if_false]
  rcases hskip with hsk | hsk
  · -- offset still unresolved: the inner element-0 query resolves it
    rw [if_pos hsk]
    rw [getChild0_good ctx t rp off hv { st with m_element_type_valid := true }
      ⟨htree, hroot, hcount, Or.inl hsk⟩]
    dsimp only
    rw [if_neg hv.off_ne]
    rw [hv.payload _ (getD_mem_addrs (show i + 1 < t.addrs.length from hi))]
    dsimp only
    refine ⟨{ st with
      m_element_type_valid := true
      m_count := t.addrs.length
      m_skip_size := off
      m_iterators := (0, iterAt ctx t 0) :: st.m_iterators }, ?_, rfl, rfl,
      Or.inr rfl, rfl, Or.inr rfl⟩
    rfl
  · -- offset already resolved
    rw [if_neg (by simp [hsk, hv.off_ne])]
    rw [if_neg (by simp [hsk, hv.off_ne])]
    rw [hsk]
    rw [hv.payload _ (getD_mem_addrs (show i + 1 < t.addrs.length from hi))]
    dsimp only
    exact ⟨{ st with
      m_element_type_valid := true
      m_skip_size := off },
      rfl, rfl, rfl, Or.inl rfl, rfl, Or.inl rfl⟩

/-- One public query on a valid container in a good state whose cursor
cache is either empty at `i - 1` or holds exactly the cursor for `i - 1`:
the query returns the `i`-th payload, keeps the state good, fixes the
element count, and caches the cursor for `i`. -/
theorem getChild_good (ctx : Ctx) (t : BT) (rp off : Nat)
    (hv : ValidContainer ctx t rp off) (st : MapState) (hg : StGood ctx t off st)
    (i : Nat) (hi : i < t.addrs.length)
    (hcache : i = 0 ∨ List.lookup (i - 1) st.m_iterators = some (iterAt ctx t (i - 1)) ∨
      List.lookup (i - 1) st.m_iterators = none) :
    (GetChildAtIndex ctx st i).1 = some (pairAt ctx t i) ∧
      StGood ctx t off (GetChildAtIndex ctx st i).2 ∧
      (GetChildAtIndex ctx st i).2.m_count = t.addrs.length ∧
      List.lookup i (GetChildAtIndex ctx st i).2.m_iterators = some (iterAt ctx t i) ∧
      (∀ k, List.lookup k (GetChildAtIndex ctx st i).2.m_iterators =
            some (iterAt ctx t k) ∨
          List.lookup k (GetChildAtIndex ctx st i).2.m_iterators =
            List.lookup k st.m_iterators) := by
  obtain ⟨htree, hroot, hcount, hskip⟩ := hg
  simp only [GetChildAtIndex]
  rw [calcNum_good ctx t st hv.size_eq htree hcount]
  dsimp only
  rw [if_neg (by omega)]
  rw [if_neg (by simp [htree, hroot])]
  cases i with
  | zero =>
    simp only [GetKeyValuePair]
    rw [kvp0_good ctx t rp off hv { st with m_count := t.addrs.length }
      ⟨htree, hroot, Or.inr rfl, hskip⟩]
    dsimp only
    rw [hv.unwrap]
    refine ⟨rfl, ⟨htree, hroot, Or.inr rfl, Or.inr rfl⟩, rfl, by simp [List.lookup], ?_⟩
    intro k
    by_cases hk : k = 0
    · subst hk
      exact Or.inl (by simp [List.lookup])
    · exact Or.inr (by simp [List.lookup, beq_eq_false_iff_ne.mpr hk])
  | succ j =>
    have hc : List.lookup j ({ st with m_count := t.addrs.length } : MapState).m_iterators
          = some (iterAt ctx t j) ∨
        List.lookup j ({ st with m_count := t.addrs.length } : MapState).m_iterators
          = none := by
      rcases hcache with hc | hc | hc
      · exact absurd hc (by omega)
      · exact Or.inl hc
      · exact Or.inr hc
    obtain ⟨st2, heq, ht2, hr2, hc2, hs2, hi2⟩ :=
      kvpPos_good ctx t rp off hv { st with m_count := t.addrs.length }
        ⟨htree, hroot, Or.inr rfl, hskip⟩ j hi hc
    rw [heq]
    dsimp only
    rw [hv.unwrap]
    have hcnt : st2.m_count = t.addrs.length := by
      rcases hc2 with h | h
      · exact h
      · exact h
    refine ⟨rfl, ⟨?_, ?_, ?_, ?_⟩, ?_, by simp [List.lookup], ?_⟩
    · rw [ht2]; exact htree
    · rw [hr2]; exact hroot
    · exact Or.inr hcnt
    · exact Or.inr hs2
    · exact hcnt
    · intro k
      by_cases hk : k = j + 1
      · subst hk
        exact Or.inl (by simp [List.lookup])
      · rcases hi2 with hi2 | hi2
        · exact Or.inr (by simp [List.lookup, beq_eq_false_iff_ne.mpr hk, hi2])
        · by_cases hk0 : k = 0
          · subst hk0
            exact Or.inl (by simp [List.lookup, beq_eq_false_iff_ne.mpr hk, hi2])
          · exact Or.inr (by
              simp [List.lookup, beq_eq_false_iff_ne.mpr hk,
                beq_eq_false_iff_ne.mpr hk0, hi2])

/-- Sequential consumption: the state after the queries at indices
`0, 1, …, i - 1`. -/
def runSeq (ctx : Ctx) (st : MapState) : Nat → MapState
  | 0 => st
  | i + 1 => (GetChildAtIndex ctx (runSeq ctx st i) i).2

/-- The payload produced by the query at index `i` during sequential
consumption. -/
def seqResult (ctx : Ctx) (st : MapState) (i : Nat) : Option (Nat × Nat) :=
  (GetChildAtIndex ctx (runSeq ctx st i) i).1

/-- Sequential consumption on a valid container produces exactly the
in-order payloads, keeping the state good and the cursor cache primed. -/
theorem seq_good (ctx : Ctx) (t : BT) (rp off : Nat)
    (hv : ValidContainer ctx t rp off) :
    ∀ i, i < t.addrs.length →
      seqResult ctx (initialState ctx) i = some (pairAt ctx t i) ∧
      StGood ctx t off (runSeq ctx (initialState ctx) (i + 1)) ∧
      List.lookup i (runSeq ctx (initialState ctx) (i + 1)).m_iterators =
        some (iterAt ctx t i) := by
  intro i
  induction i with
  | zero =>
    intro hi
    have h0 := stGood_initial ctx t rp off hv
    have h := getChild_good ctx t rp off hv _ h0.1 0 hi (Or.inl rfl)
    exact ⟨h.1, h.2.1, h.2.2.2.1⟩
  | succ j ih =>
    intro hi
    obtain ⟨_, hg, hl⟩ := ih (by omega)
    have h := getChild_good ctx t rp off hv _ hg (j + 1) hi (Or.inr (Or.inl hl))
    exact ⟨h.1, h.2.1, h.2.2.2.1⟩

/-!  Guard and invalidation behavior. -/

/-- An index at or beyond the element count is rejected before any walk. -/
theorem getChild_absent_ge (ctx : Ctx) (st : MapState) (idx : Nat)
    (h : idx ≥ (CalculateNumChildren ctx st).1) :
    (GetChildAtIndex ctx st idx).1 = none := by
  simp only [GetChildAtIndex]
  rw [if_pos h]

/-- `CalculateNumChildren` only ever writes the count field. -/
theorem calcNum_fields (ctx : Ctx) (st : MapState) :
    (CalculateNumChildren ctx st).2.m_tree = st.m_tree ∧
    (CalculateNumChildren ctx st).2.m_root_node = st.m_root_node ∧
    (CalculateNumChildren ctx st).2.m_iterators = st.m_iterators ∧
    (CalculateNumChildren ctx st).2.m_skip_size = st.m_skip_size ∧
    (CalculateNumChildren ctx st).2.m_element_type_valid = st.m_element_type_valid := by
  rw [CalculateNumChildren]
  split_ifs
  · exact ⟨rfl, rfl, rfl, rfl, rfl⟩
  · exact ⟨rfl, rfl, rfl, rfl, rfl⟩
  · cases ctx.size_field
    · exact ⟨rfl, rfl, rfl, rfl, rfl⟩
    · exact ⟨rfl, rfl, rfl, rfl, rfl⟩

/-- With the tree pointer cleared, every query short-circuits to absent and
leaves the tree pointer cleared. -/
theorem getChild_tree_cleared (ctx : Ctx) (st : MapState) (idx : Nat)
    (h : st.m_tree = false) :
    (GetChildAtIndex ctx st idx).1 = none ∧
      (GetChildAtIndex ctx st idx).2.m_tree = false := by
  simp only [GetChildAtIndex]
  by_cases hge : idx ≥ (CalculateNumChildren ctx st).1
  · rw [if_pos hge]
    exact ⟨rfl, by rw [(calcNum_fields ctx st).1]; exact h⟩
  · rw [if_neg hge]
    rw [if_pos (by simp [(calcNum_fields ctx st).1, h])]
    exact ⟨rfl, by rw [(calcNum_fields ctx st).1]; exact h⟩

/-- A failing key/value fetch clears the tree pointer and yields absent. -/
theorem getChild_invalidate (ctx : Ctx) (st : MapState) (idx : Nat)
    (hidx : ¬ idx ≥ (CalculateNumChildren ctx st).1)
    (hguard : ¬((CalculateNumChildren ctx st).2.m_tree = false ∨
      (CalculateNumChildren ctx st).2.m_root_node = none))
    (hfail : (GetKeyValuePair ctx (CalculateNumChildren ctx st).2 idx
      (CalculateNumChildren ctx st).1).1 = none) :
    (GetChildAtIndex ctx st idx).1 = none ∧
      (GetChildAtIndex ctx st idx).2.m_tree = false := by
  simp only [GetChildAtIndex]
  rw [if_neg hidx]
  rw [if_neg (by
    intro hc
    simp only [Bool.or_eq_true, decide_eq_true_eq] at hc
    exact hguard hc)]
  cases hk : (GetKeyValuePair ctx (CalculateNumChildren ctx st).2 idx
      (CalculateNumChildren ctx st).1).1 with
  | none => exact ⟨rfl, rfl⟩
  | some p => exact absurd hk (by rw [hfail]; simp)

/-- `Update` refetches the tree pointer and drops the cached count and the
cursor cache. -/
theorem update_resets (ctx : Ctx) (st : MapState) :
    (Update ctx st).m_tree = ctx.tree_exists ∧
    (Update ctx st).m_root_node = (if ctx.tree_exists = true then ctx.begin_node else none) ∧
    (Update ctx st).m_count = UINT32_MAX ∧
    (Update ctx st).m_iterators = [] := by
  rw [Update]
  by_cases h : ctx.tree_exists = true
  · rw [if_pos h, if_pos h]
    exact ⟨h.symm, rfl, rfl, rfl⟩
  · rw [if_neg h, if_neg h]
    refine ⟨?_, rfl, rfl, rfl⟩
    simp only [Bool.not_eq_true] at h
    exact h.symm

/-!  Failure modes of the key/value fetch. -/

/-- A failed data-type derivation fails the fetch. -/
theorem kvp_dtype_fail (ctx : Ctx) (st : MapState) (idx maxDepth : Nat)
    (h : (GetDataType ctx st).1 = false) :
    (GetKeyValuePair ctx st idx maxDepth).1 = none := by
  cases idx with
  | zero =>
    simp only [GetKeyValuePair, GetKeyValuePairAt0]
    rw [advance_zero ctx.mem _ rfl]
    dsimp only
    cases hroot : st.m_root_node with
    | none => rfl
    | some ve =>
      obtain ⟨v, e⟩ := ve
      simp [h]
  | succ i =>
    simp only [GetKeyValuePair]
    cases hadv : ((match List.lookup i st.m_iterators with
        | some cached => ((cached, 1) : MapIterator × Nat)
        | none => ({ m_entry := st.m_root_node, m_max_depth := maxDepth }, i + 1)).1.advance
          ctx.mem
        (match List.lookup i st.m_iterators with
          | some cached => ((cached, 1) : MapIterator × Nat)
          | none => ({ m_entry := st.m_root_node, m_max_depth := maxDepth }, i + 1)).2).1 with
    | none => rfl
    | some ve =>
      obtain ⟨v, e⟩ := ve
      simp [h]

/-- A failed dereference of the fetched node fails the fetch at index 0. -/
theorem kvp0_deref_fail (ctx : Ctx) (st : MapState) (maxDepth v : Nat) (e : Bool)
    (hroot : st.m_root_node = some (v, e))
    (hderef : ctx.derefOk v = false) :
    (GetKeyValuePairAt0 ctx st maxDepth).1 = none := by
  simp only [GetKeyValuePairAt0]
  rw [advance_zero ctx.mem _ rfl]
  dsimp only
  rw [hroot]
  cases hg : (GetDataType ctx st).1 with
  | false => simp
  | true => simp [hderef]

/-- A failing cursor walk fails the fetch at a positive index. -/
theorem kvpPos_advance_fail (ctx : Ctx) (st : MapState) (i maxDepth : Nat)
    (hadv : ((match List.lookup i st.m_iterators with
      | some cached => ((cached, 1) : MapIterator × Nat)
      | none => ({ m_entry := st.m_root_node, m_max_depth := maxDepth }, i + 1)).1.advance
        ctx.mem
      (match List.lookup i st.m_iterators with
        | some cached => ((cached, 1) : MapIterator × Nat)
        | none => ({ m_entry := st.m_root_node, m_max_depth := maxDepth }, i + 1)).2).1 = none) :
    (GetKeyValuePair ctx st (i + 1) maxDepth).1 = none := by
  simp only [GetKeyValuePair]
  rw [hadv]

/-!  Composing advances: a cached cursor advanced one step reaches the same
entry as a fresh cursor advanced one step further. -/

theorem advanceLoop_max_depth (mem : Memory) :
    ∀ (c : Nat) (it : MapIterator) (s : Nat),
      (advanceLoop mem it c s).2.m_max_depth = it.m_max_depth := by
  intro c
  induction c with
  | zero => intro it s; rfl
  | succ c ih =>
    intro it s
    rw [advanceLoop]
    split_ifs with h
    · exact next_max_depth mem it
    · rw [ih (it.next mem) (s + 1), next_max_depth]

theorem advanceLoop_add (mem : Memory) :
    ∀ (a : Nat) (it : MapIterator) (s : Nat) (p : Nat × Bool) (ita : MapIterator),
      advanceLoop mem it a s = (some p, ita) →
      ∀ b, advanceLoop mem it (a + b) s = advanceLoop mem ita b (s + a) := by
  intro a
  induction a with
  | zero =>
    intro it s p ita h b
    have h2 : it = ita := congrArg Prod.snd h
    rw [Nat.zero_add, h2]
    rfl
  | succ a ih =>
    intro it s p ita h b
    rw [advanceLoop] at h
    by_cases hC : ((it.next mem).m_error || (it.next mem).m_entry.null
        || decide ((it.next mem).m_max_depth < s + 1)) = true
    · rw [if_pos hC] at h
      exact absurd (congrArg Prod.fst h) (by simp)
    · rw [if_neg hC] at h
      have hrec := ih (it.next mem) (s + 1) p ita h b
      rw [show a + 1 + b = (a + b) + 1 by omega]
      rw [advanceLoop, if_neg hC, hrec]
      congr 1
      omega

theorem advanceLoop_success (mem : Memory) :
    ∀ (c : Nat) (it : MapIterator) (s : Nat) (p : Nat × Bool) (itk : MapIterator),
      it.m_error = false → advanceLoop mem it c s = (some p, itk) →
      itk.m_error = false ∧ itk.m_entry = some p := by
  intro c
  induction c with
  | zero =>
    intro it s p itk he h
    have h1 : it.m_entry = some p := congrArg Prod.fst h
    have h2 : it = itk := congrArg Prod.snd h
    subst h2
    exact ⟨he, h1⟩
  | succ c ih =>
    intro it s p itk he h
    rw [advanceLoop] at h
    by_cases hC : ((it.next mem).m_error || (it.next mem).m_entry.null
        || decide ((it.next mem).m_max_depth < s + 1)) = true
    · rw [if_pos hC] at h
      exact absurd (congrArg Prod.fst h) (by simp)
    · rw [if_neg hC] at h
      have hne : (it.next mem).m_error = false := by
        simp only [Bool.or_eq_true, not_or, Bool.not_eq_true] at hC
        exact hC.1.1
      exact ih (it.next mem) (s + 1) p itk hne h

/-- A single `advance` step does not depend on the per-call step counter as
long as the counter stays within the budget. -/
theorem advanceLoop_one_budget (mem : Memory) (it : MapIterator) (s1 s2 : Nat)
    (h1 : s1 + 1 ≤ it.m_max_depth) (h2 : s2 + 1 ≤ it.m_max_depth) :
    advanceLoop mem it 1 s1 = advanceLoop mem it 1 s2 := by
  have hd1 : decide ((it.next mem).m_max_depth < s1 + 1) = false := by
    rw [next_max_depth]; exact decide_eq_false (by omega)
  have hd2 : decide ((it.next mem).m_max_depth < s2 + 1) = false := by
    rw [next_max_depth]; exact decide_eq_false (by omega)
  have e1 : advanceLoop mem it 1 s1 =
      if ((it.next mem).m_error || (it.next mem).m_entry.null
          || decide ((it.next mem).m_max_depth < s1 + 1)) = true
      then (none, it.next mem) else ((it.next mem).m_entry, it.next mem) := rfl
  have e2 : advanceLoop mem it 1 s2 =
      if ((it.next mem).m_error || (it.next mem).m_entry.null
          || decide ((it.next mem).m_max_depth < s2 + 1)) = true
      then (none, it.next mem) else ((it.next mem).m_entry, it.next mem) := rfl
  rw [e1, e2, hd1, hd2]

/-- The cached path and the fresh path agree on the cursor: advancing the
cursor cached after `k` successful steps by one more step is the same as
advancing a fresh cursor `k + 1` steps, as long as the budget covers
`k + 1`. -/
theorem advance_cached_eq_fresh (mem : Memory) (it0 : MapIterator) (k : Nat)
    (p : Nat × Bool) (itk : MapIterator)
    (h0 : it0.m_error = false)
    (hk : it0.advance mem k = (some p, itk))
    (hbud : k + 1 ≤ it0.m_max_depth) :
    itk.advance mem 1 = it0.advance mem (k + 1) := by
  rw [MapIterator.advance, if_neg (by simp [h0])] at hk
  obtain ⟨hke, hkent⟩ := advanceLoop_success mem k it0 0 p itk h0 hk
  have hkd : itk.m_max_depth = it0.m_max_depth := by
    have := advanceLoop_max_depth mem k it0 0
    rw [hk] at this
    exact this
  rw [MapIterator.advance, if_neg (by simp [hke]),
    MapIterator.advance, if_neg (by simp [h0])]
  have hadd := advanceLoop_add mem k it0 0 p itk hk 1
  rw [hadd]
  exact advanceLoop_one_budget mem itk 0 (0 + k) (by omega) (by omega)

/-!  Frame facts: a failing payload-offset probe leaves the offset
unresolved across the whole element-0 query. -/

theorem getDataType_skip (ctx : Ctx) (st : MapState) :
    (GetDataType ctx st).2.m_skip_size = st.m_skip_size := by
  rw [GetDataType]
  split_ifs
  · rfl
  · cases st.m_root_node with
    | none => rfl
    | some ve =>
      obtain ⟨v, e⟩ := ve
      dsimp only
      split_ifs <;> rfl

theorem getValueOffset_skip_none (ctx : Ctx) (st : MapState)
    (h : ctx.skip_result = none) : GetValueOffset ctx st = st := by
  rw [GetValueOffset]
  split_ifs
  · rfl
  · rw [h]

theorem kvp0_skip_none (ctx : Ctx) (st : MapState) (maxd : Nat)
    (h : ctx.skip_result = none) :
    (GetKeyValuePairAt0 ctx st maxd).2.m_skip_size = st.m_skip_size := by
  simp only [GetKeyValuePairAt0]
  rw [advance_zero ctx.mem _ rfl]
  dsimp only
  cases hadv : st.m_root_node with
  | none => rfl
  | some ve =>
    obtain ⟨v, e⟩ := ve
    dsimp only
    split_ifs with h1 h2
    · exact getDataType_skip ctx st
    · exact getDataType_skip ctx st
    · rw [getValueOffset_skip_none ctx _ h]
      cases hsp : ctx.synthPayload v (GetDataType ctx st).2.m_skip_size with
      | none => exact getDataType_skip ctx st
      | some pr => exact getDataType_skip ctx st

theorem getChild0_skip_none (ctx : Ctx) (st : MapState) (h : ctx.skip_result = none) :
    (GetChildAtIndex0 ctx st).2.m_skip_size = st.m_skip_size := by
  simp only [GetChildAtIndex0]
  split_ifs with h1 h2
  · exact (calcNum_fields ctx st).2.2.2.1
  · exact (calcNum_fields ctx st).2.2.2.1
  · cases hk : (GetKeyValuePairAt0 ctx (CalculateNumChildren ctx st).2
        (CalculateNumChildren ctx st).1).1 with
    | none =>
      dsimp only
      rw [kvp0_skip_none ctx _ _ h]
      exact (calcNum_fields ctx st).2.2.2.1
    | some pr =>
      dsimp only
      rw [kvp0_skip_none ctx _ _ h]
      exact (calcNum_fields ctx st).2.2.2.1

/-- A payload offset that stays unresolved fails the fetch at a positive
index (after the internal element-0 retry). -/
theorem kvpPos_skip_unresolved (ctx : Ctx) (st : MapState) (i maxd : Nat)
    (hsr : ctx.skip_result = none) (hsk : st.m_skip_size = UINT32_MAX) :
    (GetKeyValuePair ctx st (i + 1) maxd).1 = none := by
  simp only [GetKeyValuePair]
  cases hadv : ((match List.lookup i st.m_iterators with
      | some cached => ((cached, 1) : MapIterator × Nat)
      | none => ({ m_entry := st.m_root_node, m_max_depth := maxd }, i + 1)).1.advance
        ctx.mem
      (match List.lookup i st.m_iterators with
        | some cached => ((cached, 1) : MapIterator × Nat)
        | none => ({ m_entry := st.m_root_node, m_max_depth := maxd }, i + 1)).2).1 with
  | none => rfl
  | some ve =>
    obtain ⟨v, e⟩ := ve
    have hg2 : (GetDataType ctx st).2.m_skip_size = UINT32_MAX := by
      rw [getDataType_skip]; exact hsk
    have hg3 : (GetChildAtIndex0 ctx (GetDataType ctx st).2).2.m_skip_size =
        UINT32_MAX := by
      rw [getChild0_skip_none ctx _ hsr]; exact hg2
    cases hg : (GetDataType ctx st).1 with
    | false => simp
    | true => simp [hg2, hg3]

/-- Repeating a query on a valid container in a good state with a
well-formed cache returns the same payload again: the first query leaves
the state good and its cursor cache keeps (or correctly fills) the entry
the second query consults. -/
theorem getChild_idem (ctx : Ctx) (t : BT) (rp off : Nat)
    (hv : ValidContainer ctx t rp off) (st : MapState) (hg : StGood ctx t off st)
    (i : Nat) (hi : i < t.addrs.length)
    (hcache : i = 0 ∨ List.lookup (i - 1) st.m_iterators = some (iterAt ctx t (i - 1)) ∨
      List.lookup (i - 1) st.m_iterators = none) :
    (GetChildAtIndex ctx (GetChildAtIndex ctx st i).2 i).1 =
      (GetChildAtIndex ctx st i).1 ∧
    (GetChildAtIndex ctx st i).1 = some (pairAt ctx t i) := by
  obtain ⟨h1, hg1, hcnt1, hl1, hframe⟩ :=
    getChild_good ctx t rp off hv st hg i hi hcache
  have hcache2 : i = 0 ∨
      List.lookup (i - 1) (GetChildAtIndex ctx st i).2.m_iterators =
        some (iterAt ctx t (i - 1)) ∨
      List.lookup (i - 1) (GetChildAtIndex ctx st i).2.m_iterators = none := by
    cases i with
    | zero => exact Or.inl rfl
    | succ j =>
      rcases hframe j with hf | hf
      · exact Or.inr (Or.inl hf)
      · rcases hcache with hc | hc | hc
        · exact absurd hc (by omega)
        · exact Or.inr (Or.inl (hf.trans hc))
        · exact Or.inr (Or.inr (hf.trans hc))
  obtain ⟨h2, _, _, _, _⟩ :=
    getChild_good ctx t rp off hv _ hg1 i hi hcache2
  exact ⟨by rw [h2, h1], h1⟩

/-- Strictly ascending keys along the in-order sequence. -/
theorem keys_ascending (ctx : Ctx) (t : BT)
    (hord : List.Chain' (fun x y => x < y)
      (t.addrs.map (fun a => (ctx.mem.nodes a).key)))
    (i : Nat) (hi : i + 1 < t.addrs.length) :
    (pairAt ctx t i).1 < (pairAt ctx t (i + 1)).1 := by
  have h2 := List.chain'_iff_get.mp hord i
    (by simpa using (by omega : i < t.addrs.length - 1))
  simp only [List.get_eq_getElem, List.getElem_map] at h2
  rw [pairAt, pairAt]
  dsimp only
  rw [List.getD_eq_getElem _ _ (by omega : i < t.addrs.length),
    List.getD_eq_getElem _ _ hi]
  exact h2

/-!  The example container as a well-formed tree. -/

/-- The tree shape of `egMem`: node 20 at the root, node 10 its left
child, node 30 its right child. -/
def egT : BT := .node (.node .leaf 10 .leaf) 20 (.node .leaf 30 .leaf)

theorem egT_layout : layout egMem 99 egT :=
  ⟨by decide, by decide, by decide, by decide, by decide,
   ⟨by decide, by decide, by decide, by decide, by decide, trivial, trivial⟩,
   ⟨by decide, by decide, by decide, by decide, by decide, trivial, trivial⟩⟩

theorem egValid : ValidContainer egCtx egT 99 16 where
  lay := egT_layout
  nodup := by decide
  nonempty := by decide
  tree := rfl
  begin_eq := rfl
  size_eq := rfl
  deref := rfl
  dtok := rfl
  skip_eq := rfl
  off_ne := by decide
  payload := by decide
  unwrap := fun _ => rfl

/-- An iterator context whose fast symbolic path yields nothing and whose
raw pointer reads as 0; all later capabilities would succeed, but the
address guard must stop the recovery first. -/
def egIterCtx : IterCtx where
  has_valobj := true
  has_target := true
  fast_path := none
  slow_ptr := some 5
  has_i := true
  pair_type_ok := true
  raw_addr := 0
  ast_ok := true
  byte_size := some 8
  read_ok := true
  data_pair := some 7
  child4 := fun _ => some 9
  ptrChild := fun _ _ => some 1
  spChild := fun _ _ => some 2

/-- The in-order keys of the example container are strictly increasing. -/
theorem egKeys_sorted :
    List.Chain' (fun x y => x < y)
      (egT.addrs.map (fun a => (egCtx.mem.nodes a).key)) := by
  have h : egT.addrs.map (fun a => (egCtx.mem.nodes a).key) = [1, 2, 3] := rfl
  rw [h]
  exact List.chain'_cons.mpr ⟨by omega, List.chain'_cons.mpr ⟨by omega, by simp⟩⟩

/-!  The claims. -/

/-- C1: every cursor walk terminates within the fixed step budget.  The
literal step counters of the upward parent walk, the leftmost descent and
the advance loop never exceed budget + 1; the counting loops compute
exactly the walks the cursor runs; and on the concrete cyclic graph
(nodes 1 and 2 each other's parents) every element query at a positive
index returns absent instead of hanging. -/
theorem claim_C1 :
    (∀ (mem : Memory) (b : Nat) (e : MapEntry) (s : Nat), s ≤ b →
      (nextUpLoopSteps mem b e s).2 ≤ b + 1) ∧
    (∀ (mem : Memory) (b : Nat) (x left : MapEntry) (s : Nat), s ≤ b →
      (treeMinLoopSteps mem b x left s).2 ≤ b + 1) ∧
    (∀ (mem : Memory) (c : Nat) (it : MapIterator) (s : Nat),
      s ≤ it.m_max_depth →
      (advanceLoopSteps mem it c s).2 ≤ it.m_max_depth + 1) ∧
    (∀ (mem : Memory) (b : Nat) (e : MapEntry) (s : Nat),
      (nextUpLoopSteps mem b e s).1 = nextUpLoop mem e (b - s)) ∧
    (∀ (mem : Memory) (b : Nat) (x left : MapEntry) (s : Nat),
      (treeMinLoopSteps mem b x left s).1 = treeMinLoop mem x left (b - s)) ∧
    (∀ (mem : Memory) (c : Nat) (it : MapIterator) (s : Nat),
      (advanceLoopSteps mem it c s).1 = advanceLoop mem it c s) ∧
    (∀ idx, 1 ≤ idx →
      (GetChildAtIndex cycCtx (initialState cycCtx) idx).1 = none) := by
  refine ⟨nextUpLoopSteps_le, treeMinLoopSteps_le, advanceLoopSteps_le_budget,
    nextUpLoopSteps_eq, treeMinLoopSteps_eq, advanceLoopSteps_eq, ?_⟩
  intro idx hidx
  by_cases h3 : idx ≥ 3
  · exact getChild_absent_ge cycCtx (initialState cycCtx) idx (by
      have hc : (CalculateNumChildren cycCtx (initialState cycCtx)).1 = 3 := by decide
      omega)
  · interval_cases idx
    · decide
    · decide

theorem claim_C1_witness :
    (advanceLoopSteps cycMem { m_entry := some (1, false), m_max_depth := 3 } 2 0).2
        ≤ 3 + 1 ∧
    (GetChildAtIndex cycCtx (initialState cycCtx) 1).1 = none ∧
    (GetChildAtIndex cycCtx (initialState cycCtx) 5).1 = none :=
  ⟨claim_C1.2.2.1 cycMem 2 { m_entry := some (1, false), m_max_depth := 3 } 0
      (by decide),
   claim_C1.2.2.2.2.2.2 1 (by decide),
   claim_C1.2.2.2.2.2.2 5 (by decide)⟩

/-- C2: the element count is the value read from the size field of the
control block (first element of the compressed pair), with a missing tree
or size field read as 0; any index at or beyond the count is answered
absent before any walk; and on a valid container with N elements the count
is exactly N and every index below N yields a payload. -/
theorem claim_C2 :
    (∀ (ctx : Ctx) (st : MapState), st.m_count = UINT32_MAX →
      (CalculateNumChildren ctx st).1 =
        (if st.m_tree = false then 0 else ctx.size_field.getD 0)) ∧
    (∀ (ctx : Ctx) (st : MapState) (idx : Nat),
      idx ≥ (CalculateNumChildren ctx st).1 →
      (GetChildAtIndex ctx st idx).1 = none) ∧
    (∀ (ctx : Ctx) (t : BT) (rp off : Nat), ValidContainer ctx t rp off →
      (CalculateNumChildren ctx (initialState ctx)).1 = t.addrs.length ∧
      (∀ i, i < t.addrs.length →
        seqResult ctx (initialState ctx) i = some (pairAt ctx t i))) := by
  refine ⟨?_, getChild_absent_ge, ?_⟩
  · intro ctx st hcnt
    rw [CalculateNumChildren, if_neg (by simp [hcnt])]
    by_cases ht : st.m_tree = false
    · rw [if_pos ht, if_pos ht]
    · rw [if_neg ht, if_neg ht]
      cases ctx.size_field <;> rfl
  · intro ctx t rp off hv
    refine ⟨?_, fun i hi => (seq_good ctx t rp off hv i hi).1⟩
    have h0 := stGood_initial ctx t rp off hv
    rw [calcNum_good ctx t (initialState ctx) hv.size_eq h0.1.1 h0.1.2.2.1]

theorem claim_C2_witness :
    (CalculateNumChildren egCtx (initialState egCtx)).1 = 3 ∧
    seqResult egCtx (initialState egCtx) 2 = some (pairAt egCtx egT 2) ∧
    (GetChildAtIndex egCtx (initialState egCtx) 3).1 = none :=
  ⟨by rw [(claim_C2.2.2 egCtx egT 99 16 egValid).1]; rfl,
   (claim_C2.2.2 egCtx egT 99 16 egValid).2 2 (by decide),
   claim_C2.2.1 egCtx (initialState egCtx) 3 (by decide)⟩

/-- C3: sequential consumption of a well-formed container whose in-order
keys are strictly increasing yields the elements in strictly ascending key
order; and on the concrete 3-element tree (root 20 with key 2, left child
10 with key 1, right child 30 with key 3) the queries at 0, 1, 2 return
the pairs with keys 1, 2, 3 and the query at 3 returns absent. -/
theorem claim_C3 :
    (∀ (ctx : Ctx) (t : BT) (rp off : Nat), ValidContainer ctx t rp off →
      List.Chain' (fun x y => x < y)
        (t.addrs.map (fun a => (ctx.mem.nodes a).key)) →
      ∀ i, i + 1 < t.addrs.length →
        ∃ k1 v1 k2 v2,
          seqResult ctx (initialState ctx) i = some (k1, v1) ∧
          seqResult ctx (initialState ctx) (i + 1) = some (k2, v2) ∧
          k1 < k2) ∧
    seqResult egCtx (initialState egCtx) 0 = some (1, 100) ∧
    seqResult egCtx (initialState egCtx) 1 = some (2, 200) ∧
    seqResult egCtx (initialState egCtx) 2 = some (3, 300) ∧
    (GetChildAtIndex egCtx (runSeq egCtx (initialState egCtx) 3) 3).1 = none := by
  refine ⟨?_, by decide, by decide, by decide, by decide⟩
  intro ctx t rp off hv hord i hi
  refine ⟨(pairAt ctx t i).1, (pairAt ctx t i).2, (pairAt ctx t (i + 1)).1,
    (pairAt ctx t (i + 1)).2, ?_, ?_, keys_ascending ctx t hord i hi⟩
  · simpa using (seq_good ctx t rp off hv i (by omega)).1
  · simpa using (seq_good ctx t rp off hv (i + 1) hi).1

theorem claim_C3_witness :
    ∃ k1 v1 k2 v2,
      seqResult egCtx (initialState egCtx) 0 = some (k1, v1) ∧
      seqResult egCtx (initialState egCtx) 1 = some (k2, v2) ∧ k1 < k2 :=
  claim_C3.1 egCtx egT 99 16 egValid egKeys_sorted 0 (by decide)

/-- C4: any failure along an element query invalidates the whole view.  A
failing key/value fetch clears the tree pointer and answers absent; with
the tree pointer cleared every subsequent query short-circuits to absent
and keeps it cleared; the fetch fails when the data type cannot be
derived, when the node cannot be dereferenced, when the payload offset
stays unresolved, or when the cursor walk fails; and the next refresh
recomputes the tree pointer, count and cursor cache. -/
theorem claim_C4 :
    (∀ (ctx : Ctx) (st : MapState) (idx : Nat),
      ¬ idx ≥ (CalculateNumChildren ctx st).1 →
      ¬((CalculateNumChildren ctx st).2.m_tree = false ∨
        (CalculateNumChildren ctx st).2.m_root_node = none) →
      (GetKeyValuePair ctx (CalculateNumChildren ctx st).2 idx
        (CalculateNumChildren ctx st).1).1 = none →
      (GetChildAtIndex ctx st idx).1 = none ∧
        (GetChildAtIndex ctx st idx).2.m_tree = false) ∧
    (∀ (ctx : Ctx) (st : MapState) (idx : Nat), st.m_tree = false →
      (GetChildAtIndex ctx st idx).1 = none ∧
        (GetChildAtIndex ctx st idx).2.m_tree = false) ∧
    (∀ (ctx : Ctx) (st : MapState) (idx maxDepth : Nat),
      (GetDataType ctx st).1 = false →
      (GetKeyValuePair ctx st idx maxDepth).1 = none) ∧
    (∀ (ctx : Ctx) (st : MapState) (maxDepth v : Nat) (e : Bool),
      st.m_root_node = some (v, e) → ctx.derefOk v = false →
      (GetKeyValuePairAt0 ctx st maxDepth).1 = none) ∧
    (∀ (ctx : Ctx) (st : MapState) (i maxDepth : Nat),
      ctx.skip_result = none → st.m_skip_size = UINT32_MAX →
      (GetKeyValuePair ctx st (i + 1) maxDepth).1 = none) ∧
    (∀ (ctx : Ctx) (st : MapState),
      (Update ctx st).m_tree = ctx.tree_exists ∧
      (Update ctx st).m_root_node =
        (if ctx.tree_exists = true then ctx.begin_node else none) ∧
      (Update ctx st).m_count = UINT32_MAX ∧
      (Update ctx st).m_iterators = []) :=
  ⟨getChild_invalidate, getChild_tree_cleared, kvp_dtype_fail, kvp0_deref_fail,
   kvpPos_skip_unresolved, update_resets⟩

theorem claim_C4_witness :
    ((GetChildAtIndex cycCtx (initialState cycCtx) 1).1 = none ∧
      (GetChildAtIndex cycCtx (initialState cycCtx) 1).2.m_tree = false) ∧
    ((GetChildAtIndex cycCtx (GetChildAtIndex cycCtx (initialState cycCtx) 1).2 2).1
        = none ∧
      (GetChildAtIndex cycCtx
        (GetChildAtIndex cycCtx (initialState cycCtx) 1).2 2).2.m_tree = false) ∧
    (Update cycCtx (GetChildAtIndex cycCtx (initialState cycCtx) 1).2).m_tree = true :=
  ⟨claim_C4.1 cycCtx (initialState cycCtx) 1 (by decide) (by decide) (by decide),
   claim_C4.2.1 cycCtx (GetChildAtIndex cycCtx (initialState cycCtx) 1).2 2 (by decide),
   by
    rw [(claim_C4.2.2.2.2.2 cycCtx
      (GetChildAtIndex cycCtx (initialState cycCtx) 1).2).1]
    rfl⟩

/-- C5: a cursor's error flag is sticky — with the flag set, advance
returns failure at once and leaves the cursor untouched, and one cursor
step keeps the flag set — and the walks set the flag exactly when a
visited node reports a memory-access error: the upward parent walk ends in
error iff some visited entry on the parent chain (none of whose
predecessors was a left child or in error) is in error, and likewise the
leftmost descent along the left chain. -/
theorem claim_C5 :
    (∀ (mem : Memory) (it : MapIterator) (c : Nat), it.m_error = true →
      it.advance mem c = (none, it)) ∧
    (∀ (mem : Memory) (it : MapIterator), it.m_error = true →
      (it.next mem).m_error = true) ∧
    (∀ (mem : Memory) (r : Nat) (e : MapEntry),
      (nextUpLoop mem e r).2 = true ↔
        ∃ k, k ≤ r ∧
          (∀ j < k, is_left_child mem (parIter mem e j) = false ∧
            (parIter mem e j).error = false) ∧
          is_left_child mem (parIter mem e k) = false ∧
          (parIter mem e k).error = true) ∧
    (∀ (mem : Memory) (r : Nat) (x left : MapEntry),
      (treeMinLoop mem x left r).2 = true ↔
        ∃ k, k ≤ r ∧
          (∀ j < k, (leftIter mem left j).null = false ∧
            (leftIter mem left j).error = false) ∧
          (leftIter mem left k).null = false ∧
          (leftIter mem left k).error = true) := by
  refine ⟨?_, next_error_mono, nextUpLoop_error_iff, treeMinLoop_error_iff⟩
  intro mem it c h
  rw [MapIterator.advance, if_pos h]

theorem claim_C5_witness :
    ({ m_entry := some (10, false), m_max_depth := 3, m_error := true } :
        MapIterator).advance egMem 2 =
      (none, { m_entry := some (10, false), m_max_depth := 3, m_error := true }) :=
  claim_C5.1 egMem
    { m_entry := some (10, false), m_max_depth := 3, m_error := true } 2 rfl

/-- C6: running out of step budget is a neutral stop, not a failure.  If
every entry examined within the budget is a viable step (never a left
child and never in error on the upward walk; non-null and never in error
on the descent), the walk ends at the default null entry with the error
flag unset; concretely, the cursor step from node 1 of the cyclic graph
ends at the null sentinel without error. -/
theorem claim_C6 :
    (∀ (mem : Memory) (r : Nat) (e : MapEntry),
      (∀ k ≤ r, is_left_child mem (parIter mem e k) = false ∧
        (parIter mem e k).error = false) →
      nextUpLoop mem e r = (none, false)) ∧
    (∀ (mem : Memory) (r : Nat) (x left : MapEntry),
      (∀ k ≤ r, (leftIter mem left k).null = false ∧
        (leftIter mem left k).error = false) →
      treeMinLoop mem x left r = (none, false)) ∧
    (({ m_entry := some (1, false), m_max_depth := 3 } : MapIterator).next
        cycMem).m_entry = none ∧
    (({ m_entry := some (1, false), m_max_depth := 3 } : MapIterator).next
        cycMem).m_error = false :=
  ⟨nextUpLoop_exceed, treeMinLoop_exceed, by decide, by decide⟩

theorem claim_C6_witness :
    nextUpLoop cycMem (some (1, false)) 3 = (none, false) :=
  claim_C6.1 cycMem 3 (some (1, false)) (by decide)

/-- C7: the cached path and the fresh path are equivalent.  Advancing the
cursor cached after k successful steps by one more step equals advancing a
fresh cursor k + 1 steps under the same budget; and on a valid container
any query from a good state — whether its cursor cache holds the previous
index (cached path) or nothing there (fresh path, as in random access) —
returns exactly the payload sequential consumption produces at that
index. -/
theorem claim_C7 :
    (∀ (mem : Memory) (it0 : MapIterator) (k : Nat) (p : Nat × Bool)
      (itk : MapIterator), it0.m_error = false →
      it0.advance mem k = (some p, itk) → k + 1 ≤ it0.m_max_depth →
      itk.advance mem 1 = it0.advance mem (k + 1)) ∧
    (∀ (ctx : Ctx) (t : BT) (rp off : Nat), ValidContainer ctx t rp off →
      ∀ (st : MapState), StGood ctx t off st →
      ∀ i, i < t.addrs.length →
        (i = 0 ∨ List.lookup (i - 1) st.m_iterators = some (iterAt ctx t (i - 1)) ∨
          List.lookup (i - 1) st.m_iterators = none) →
        (GetChildAtIndex ctx st i).1 = seqResult ctx (initialState ctx) i) := by
  refine ⟨advance_cached_eq_fresh, ?_⟩
  intro ctx t rp off hv st hg i hi hcache
  rw [(getChild_good ctx t rp off hv st hg i hi hcache).1,
    (seq_good ctx t rp off hv i hi).1]

theorem claim_C7_witness :
    ({ m_entry := some (20, false), m_max_depth := 3 } : MapIterator).advance egMem 1 =
      ({ m_entry := some (10, false), m_max_depth := 3 } : MapIterator).advance
        egMem 2 ∧
    (GetChildAtIndex egCtx (initialState egCtx) 0).1 =
      seqResult egCtx (initialState egCtx) 0 :=
  ⟨claim_C7.1 egMem { m_entry := some (10, false), m_max_depth := 3 } 1 (20, false)
      { m_entry := some (20, false), m_max_depth := 3 } rfl (by decide) (by decide),
   claim_C7.2 egCtx egT 99 16 egValid (initialState egCtx)
      (stGood_initial egCtx egT 99 16 egValid).1 0 (by decide) (Or.inl rfl)⟩

/-- C8: when the recoverer's fast symbolic path yields nothing and the raw
pointer value reads as 0 or as the invalid-address sentinel, the update
materialises no pair object — both members are reset — and every
subsequent child request on the iterator returns absent. -/
theorem claim_C8 :
    ∀ (ctx : IterCtx) (st : IterState), ctx.fast_path = none →
      (ctx.raw_addr = 0 ∨ ctx.raw_addr = LLDB_INVALID_ADDRESS) →
      IterUpdate ctx st = {} ∧
      ∀ idx, IterGetChildAtIndex ctx (IterUpdate ctx st) idx = none := by
  intro ctx st hfp hraw
  have hng : ¬(ctx.raw_addr ≠ 0 ∧ ctx.raw_addr ≠ LLDB_INVALID_ADDRESS) := by
    rcases hraw with h | h
    · exact fun hc => hc.1 h
    · exact fun hc => hc.2 h
  have hupd : IterUpdate ctx st = {} := by
    simp only [IterUpdate, hfp]
    cases hsp : ctx.slow_ptr with
    | none => split_ifs <;> rfl
    | some q =>
      dsimp only
      split_ifs with h1 h2 h3 h4 h5 <;> first | rfl | exact absurd h5 hng
  exact ⟨hupd, fun idx => by rw [hupd]; rfl⟩

theorem claim_C8_witness :
    IterUpdate egIterCtx {} = {} ∧
    IterGetChildAtIndex egIterCtx (IterUpdate egIterCtx {}) 0 = none :=
  ⟨(claim_C8 egIterCtx {} rfl (Or.inl rfl)).1,
   (claim_C8 egIterCtx {} rfl (Or.inl rfl)).2 0⟩

/-- C9: without an intervening invalidation or refresh, repeating a query
at the same index is idempotent: on a valid container, from any good state
whose cursor cache is sound at the previous index, the repeated query
returns the same payload as the first, namely the in-order element at that
index. -/
theorem claim_C9 :
    ∀ (ctx : Ctx) (t : BT) (rp off : Nat), ValidContainer ctx t rp off →
      ∀ (st : MapState), StGood ctx t off st →
      ∀ i, i < t.addrs.length →
        (i = 0 ∨ List.lookup (i - 1) st.m_iterators = some (iterAt ctx t (i - 1)) ∨
          List.lookup (i - 1) st.m_iterators = none) →
        (GetChildAtIndex ctx (GetChildAtIndex ctx st i).2 i).1 =
            (GetChildAtIndex ctx st i).1 ∧
          (GetChildAtIndex ctx st i).1 = some (pairAt ctx t i) :=
  fun ctx t rp off hv st hg i hi hcache =>
    getChild_idem ctx t rp off hv st hg i hi hcache

theorem claim_C9_witness :
    (GetChildAtIndex egCtx (GetChildAtIndex egCtx (initialState egCtx) 0).2 0).1 =
        (GetChildAtIndex egCtx (initialState egCtx) 0).1 ∧
      (GetChildAtIndex egCtx (initialState egCtx) 0).1 = some (pairAt egCtx egT 0) :=
  claim_C9 egCtx egT 99 16 egValid (initialState egCtx)
    (stGood_initial egCtx egT 99 16 egValid).1 0 (by decide) (Or.inl rfl)

/-- C10: advancing an error-free cursor by 0 steps performs no traversal:
it returns the cursor's current entry (absent when that entry is itself
absent) and leaves the cursor — entry, budget and error flag — exactly as
it was. -/
theorem claim_C10 :
    ∀ (mem : Memory) (it : MapIterator), it.m_error = false →
      it.advance mem 0 = (it.m_entry, it) :=
  fun mem it h => advance_zero mem it h

theorem claim_C10_witness :
    ({ m_entry := some (10, false), m_max_depth := 3 } : MapIterator).advance egMem 0 =
      (some (10, false), { m_entry := some (10, false), m_max_depth := 3 }) :=
  claim_C10 egMem { m_entry := some (10, false), m_max_depth := 3 } rfl

end LibCxxMap
